import Mathlib

/-!
Verification of the correlation/rendering engine of `reminders.py`.

The Python source is shallowly embedded: records (Python dicts read from a
spreadsheet sheet) become association lists from field names to `Value`s,
Python exceptions become `Except Err`, and the external collaborators
(pandas/Excel ingestion, SMTP transport, `input()`/terminal, `datetime.now`,
configparser) are modelled as explicit parameters at the boundary, exactly
as the spec carves them out.
-/

namespace Rem

/-! ### Python string primitives (ASCII faithful) -/

/-- Python `str.lower` on one character (ASCII range; other characters kept). -/
def lowerChar (c : Char) : Char :=
  if c.toNat ≥ 65 ∧ c.toNat ≤ 90 then Char.ofNat (c.toNat + 32) else c

/-- Characters stripped by Python `str.strip()` with no arguments. -/
def isPySpace (c : Char) : Bool :=
  c = ' ' ∨ c = '\t' ∨ c = '\n' ∨ c = '\x0d' ∨ c = '\x0b' ∨ c = '\x0c'

/-- Python `str.lower` on a character list. -/
def lowerL (l : List Char) : List Char := l.map lowerChar

/-- Python `str.strip()` on a character list: drop leading and trailing whitespace. -/
def stripL (l : List Char) : List Char :=
  ((l.dropWhile isPySpace).reverse.dropWhile isPySpace).reverse

/-- Python `str.lower` on a `String`. -/
def pyLower (s : String) : String := String.mk (lowerL s.data)

/-- Python `str.strip()` on a `String`. -/
def pyStrip (s : String) : String := String.mk (stripL s.data)

/-- `startsWithL n h` holds when `h` begins with `n` (character lists). -/
def startsWithL : List Char → List Char → Bool
  | [], _ => true
  | _ :: _, [] => false
  | a :: as, b :: bs => a = b && startsWithL as bs

/-- Python `needle in hay` substring test on character lists. -/
def substrL (n : List Char) : List Char → Bool
  | [] => n.isEmpty
  | c :: t => startsWithL n (c :: t) || substrL n t

/-- Python `needle in hay` substring test on strings. -/
def pyIn (needle hay : String) : Bool := substrL needle.data hay.data

/-- Split a character list at a separator character (Python
`str.split(sep)` with a one-character separator: `""` splits to `[""]`,
separators at the ends produce empty pieces). -/
def splitOnChar (sep : Char) : List Char → List (List Char)
  | [] => [[]]
  | c :: t =>
      match splitOnChar sep t, decide (c = sep) with
      | rs, true => [] :: rs
      | [], false => [[c]]
      | r :: rs, false => (c :: r) :: rs

/-- Python `s.split(sep)` for a one-character separator. -/
def pySplit (s : String) (sep : Char) : List String :=
  (splitOnChar sep s.data).map String.mk

/-! ### Values and records -/

/-- A spreadsheet cell / Python value as the program manipulates it:
a string, a `datetime.datetime` (year, month, day, hour, minute, second),
or Python `None`. -/
inductive Value where
  | str (s : String)
  | dt (y mo d hh mi ss : Nat)
  | none
  deriving DecidableEq, Repr

/-- A record: a Python `dict` from column-header names to cell values,
in insertion order (Python 3.7+ dicts preserve insertion order). -/
abbrev Record := List (String × Value)

namespace Record

/-- Python `dict.get(k)`: `Option.none` models an absent key (Python `None`
from `get`), `some v` a present one. -/
def get (r : Record) (k : String) : Option Value :=
  (r.find? (fun p => p.1 = k)).map (fun p => p.2)

/-- `dict.get(k)` where the key itself may be Python `None` (an unset
configured header name): `None` is never a column name, so the lookup finds
nothing. -/
def getOpt (r : Record) (k : Option String) : Option Value :=
  match k with
  | some key => get r key
  | Option.none => Option.none

/-- Python `k in dict`. -/
def hasKey (r : Record) (k : String) : Bool := r.any (fun p => p.1 = k)

/-- Python `dict.values()` in order. -/
def values (r : Record) : List Value := r.map (fun p => p.2)

/-- Python `dict.keys()` in order. -/
def keys (r : Record) : List String := r.map (fun p => p.1)

/-- Python `d[k] = v`: replace in place when the key exists, else append. -/
def set (r : Record) (k : String) (v : Value) : Record :=
  if r.any (fun p => p.1 = k) then
    r.map (fun p => if p.1 = k then (k, v) else p)
  else
    r ++ [(k, v)]

end Record

/-- `str(x)` for an optional value as Python f-strings render it:
absent keys surface as `None`. -/
def pyStrOpt (o : Option Value) : String :=
  match o with
  | Option.none => "None"
  | some (Value.str s) => s
  | some (Value.dt y mo d hh mi ss) =>
      let p2 := fun (n : Nat) => if n < 10 then "0" ++ toString n else toString n
      toString y ++ "-" ++ p2 mo ++ "-" ++ p2 d ++ " " ++ p2 hh ++ ":" ++ p2 mi ++ ":" ++ p2 ss
  | some Value.none => "None"

/-! ### Errors (Python exceptions) -/

/-- The exceptions the embedded code can raise.  `ambiguousUser` and
`missingUser` carry the structured payloads the Python constructors receive;
`typeError`/`valueError` model the interpreter-raised counterparts;
`eofError` models `input()` hitting end of input. -/
inductive Err where
  | ambiguousUser (username : String) (found : List (Option Value))
  | missingUser (username : String) (record : Option Value) (row : Option Value)
  | valueError (msg : String)
  | typeError
  | eofError
  deriving DecidableEq, Repr

/-- The provenance column name (`ROW_HEADER = '_row'`). -/
def ROW_HEADER : String := "_row"

/-! ### Person resolver (`Reminders.find_user`) -/

/-- `username.lower().strip()` — the query normalisation in `find_user`. -/
def normalizeQuery (username : String) : String := pyStrip (pyLower username)

/-- One field test of `find_user`:
`isinstance(v, str) and searchname in v.lower()`. -/
def fieldMatch (searchname : String) (v : Value) : Bool :=
  match v with
  | Value.str s => pyIn searchname (pyLower s)
  | _ => false

/-- The inner loop of `find_user`: does some field value of `user` match?
(The Python `break` after the first hit means each record is appended at
most once; `List.any` is that loop.) -/
def userMatches (searchname : String) (user : Record) : Bool :=
  user.values.any (fieldMatch searchname)

/-- The candidate list `matches` accumulated by `find_user`. -/
def candidates (users : List Record) (username : String) : List Record :=
  users.filter (userMatches (normalizeQuery username))

/-- `Reminders.find_user(users, username)`.  Returns `none` for no match,
`some user` for a unique match, and raises `AmbiguousUser` (query text plus
the `_row` provenance labels of every match, in encounter order) otherwise. -/
def find_user (users : List Record) (username : String) : Except Err (Option Record) :=
  match candidates users username with
  | [] => Except.ok Option.none
  | [u] => Except.ok (some u)
  | ms => Except.error (Err.ambiguousUser username (ms.map (fun u => u.get ROW_HEADER)))

/-- The distinct elements of a list, keeping first appearances in order
(models both a Python `set` built from a list — downstream uses are
order-insensitive — and the insertion order of dict keys). -/
def firstAppearance {α : Type} [DecidableEq α] (l : List α) : List α :=
  l.foldl (fun acc x => if acc.any (fun y => y = x) then acc else acc ++ [x]) []

/-- Effectful `map` over `Except` (a Python loop building a list, where the
body may raise). -/
def mapE {α β : Type} (f : α → Except Err β) : List α → Except Err (List β)
  | [] => Except.ok []
  | a :: t => do
      let b ← f a
      let bs ← mapE f t
      Except.ok (b :: bs)

/-- Effectful fold over `Except` (a Python loop threading state, where the
body may raise). -/
def foldE {σ α : Type} (f : σ → α → Except Err σ) : σ → List α → Except Err σ
  | s, [] => Except.ok s
  | s, a :: t => do
      let s' ← f s a
      foldE f s' t

/-! ### Correlator (`Reminders.correlate`) -/

/-- The internal `uname_actions` accumulator: a Python dict keyed by the
resolved user's id-field value (any hashable, so `Option Value`), holding the
accumulated action list, in insertion order. -/
abbrev Grouping := List (Option Value × List Record)

/-- `uname_actions.update({uname: uact})` where `uact` is the old list with
`action` appended: replaces in place when the key exists, else appends. -/
def groupAdd (m : Grouping) (k : Option Value) (action : Record) : Grouping :=
  if m.any (fun p => p.1 = k) then
    m.map (fun p => if p.1 = k then (p.1, p.2 ++ [action]) else p)
  else
    m ++ [(k, [action])]

/-- `action.get(hdr_user).split('/')`: the `/`-split token list of the
assignee field.  A non-string (or absent, hence Python `None`) assignee makes
`.split` raise `AttributeError`, modelled as `typeError`. -/
def tokensOf (hdrUser : Option String) (action : Record) : Except Err (List String) :=
  match action.getOpt hdrUser with
  | some (Value.str s) => Except.ok (pySplit s '/')
  | _ => Except.error Err.typeError

/-- One iteration of the inner loop of `correlate`: resolve one assignee
token, raising `MissingUser` (token, id-field value, provenance) when it
resolves to nobody, else append the action to that user's accumulating list. -/
def procToken (users : List Record) (hdrUser hdrId : Option String) (action : Record)
    (m : Grouping) (tok : String) : Except Err Grouping := do
  match (← find_user users tok) with
  | Option.none =>
      Except.error (Err.missingUser tok (action.getOpt hdrId) (action.get ROW_HEADER))
  | some user => Except.ok (groupAdd m (user.getOpt hdrUser) action)

/-- One iteration of the outer loop of `correlate`: split the assignee
field and process each token. -/
def corrStep (users : List Record) (hdrUser hdrId : Option String)
    (m : Grouping) (action : Record) : Except Err Grouping := do
  let toks ← tokensOf hdrUser action
  foldE (procToken users hdrUser hdrId action) m toks

/-- The accumulation loop of `correlate` over all actions and tokens. -/
def correlateMap (users : List Record) (hdrUser hdrId : Option String)
    (actions : List Record) : Except Err Grouping :=
  foldE (corrStep users hdrUser hdrId) [] actions

/-- The final comprehension of `correlate`: re-resolve each accumulated key
(`find_user(users, uname)`, which needs `uname` to be a string or `.lower()`
raises) into its user record. -/
def materializeKey (users : List Record) (k : Option Value) : Except Err (Option Record) :=
  match k with
  | some (Value.str s) => find_user users s
  | _ => Except.error Err.typeError

/-- One step of the final comprehension: pair the re-resolved user with the
accumulated action list. -/
def matPair (users : List Record) (p : Option Value × List Record) :
    Except Err (Option Record × List Record) := do
  let u ← materializeKey users p.1
  Except.ok (u, p.2)

/-- `Reminders.correlate(users, actions)` for configured id field `hdrUser`
and action-id field `hdrId`. -/
def correlate (users : List Record) (hdrUser hdrId : Option String)
    (actions : List Record) : Except Err (List (Option Record × List Record)) := do
  let m ← correlateMap users hdrUser hdrId actions
  mapE (matPair users) m

/-! ### The `FIELD_RE = re.compile(r'\{.*\}')` regex engine

`.` does not match a newline, so a match never spans lines; within one line
the greedy `.*` makes the (leftmost) match run from the first `\x7b` that is
followed by some `\x7d` on the same line — which, if any `\x7b` is, the first
`\x7b` of the line is — to the last `\x7d` of the line.  Scanning resumes
after that last `\x7d`, where no further `\x7d` remains, so each line
contributes at most one match. -/

/-- Split a character list at newline characters (Python line structure as
the regex engine sees it: `.` stops at each `\n`). -/
def splitLines : List Char → List (List Char)
  | [] => [[]]
  | c :: t =>
      match splitLines t, decide (c = '\n') with
      | rs, true => [] :: rs
      | [], false => [[c]]
      | r :: rs, false => (c :: r) :: rs

/-- Rejoin what `splitLines` split. -/
def joinLines : List (List Char) → List Char
  | [] => []
  | [l] => l
  | l :: ls => l ++ '\n' :: joinLines ls

/-- Keep the longest initial segment of `l` up to and including the last
occurrence of `c` (the greedy backtracking of `.*` before the closing brace). -/
def takeToLast (c : Char) (l : List Char) : List Char :=
  (l.reverse.dropWhile (fun x => ¬x = c)).reverse

/-- The single `FIELD_RE` match of one line, decomposed as
(text before, match, text after); `Option.none` when the line has no match. -/
def lineDecomp (l : List Char) : Option (List Char × List Char × List Char) :=
  match l.dropWhile (fun c => ¬c = '{') with
  | [] => Option.none
  | _ :: rest =>
      if ('}' ∈ rest) then
        some (l.takeWhile (fun c => ¬c = '{'),
          '{' :: takeToLast '}' rest, rest.drop (takeToLast '}' rest).length)
      else
        Option.none

/-- `FIELD_RE.findall(s)` (the matches, in order). -/
def reFindall (s : String) : List (List Char) :=
  (splitLines s.data).filterMap (fun l => (lineDecomp l).map (fun d => d.2.1))

/-- One line of `FIELD_RE.sub`: replace the line's match (if any) by `f`
applied to it; an exception from `f` propagates. -/
def subLine (f : List Char → Except Err (List Char)) (l : List Char) :
    Except Err (List Char) :=
  match lineDecomp l with
  | Option.none => Except.ok l
  | some (pre, m, post) => do
      let r ← f m
      Except.ok (pre ++ r ++ post)

/-- `FIELD_RE.sub(f, s)` where the replacement callback may raise: each
line's match (if any) is replaced by `f` applied to the match, and an
exception from `f` aborts the whole substitution with no output. -/
def reSub (f : List Char → Except Err (List Char)) (s : String) : Except Err String := do
  let ls ← mapE (subLine f) (splitLines s.data)
  Except.ok (String.mk (joinLines ls))

/-! ### Template substitutor (`Reminders.substitute`, `Reminders.get_fields`) -/

/-- The inner name of a placeholder match: `group[1:-1]` (the outer braces
stripped). -/
def innerOf (group : List Char) : String := String.mk (group.drop 1).dropLast

/-- The `new_value` closure inside `substitute`: strip the outer braces
(`group[1:-1]`), substitute `str(days)` for the literal name `days`, else the
user's like-named field — whose value must be a string or `re.sub` raises
`TypeError` — and raise `ValueError` for an absent field. -/
def new_value (user : Record) (days : Int) (group : List Char) : Except Err (List Char) :=
  let v := innerOf group
  if v = "days" then Except.ok (toString days).data
  else if user.hasKey v then
    match user.get v with
    | some (Value.str s) => Except.ok s.data
    | _ => Except.error Err.typeError
  else
    Except.error (Err.valueError ("Missing user field=\x27" ++ v ++ "\x27"))

/-- `Reminders.substitute(template, user, days)`. -/
def substitute (template : String) (user : Record) (days : Int) : Except Err String :=
  reSub (new_value user days) template

/-- `Reminders.get_fields(string)`: the set of `FIELD_RE` matches with every
brace character removed, as a duplicate-free list (Python `set`). -/
def get_fields (s : String) : List String :=
  firstAppearance ((reFindall s).map (fun m =>
    String.mk (m.filter (fun c => ¬c = '{' ∧ ¬c = '}'))))

/-! ### Table renderer (`Reminders._format`, `Reminders._create_table`)

`prettytable` is an external library; the embedding models the data handed
to it — the header list (`table.field_names`) and each row's cell strings
(`table.add_row(values)`) — which fixes column order, row order and cell
contents of every output encoding. -/

/-- `str(date(y, mo, d))`: ISO calendar date, zero-padded. -/
def dateStr (y mo d : Nat) : String :=
  let p2 := fun (n : Nat) => if n < 10 then "0" ++ toString n else toString n
  toString y ++ "-" ++ p2 mo ++ "-" ++ p2 d

/-- `Reminders._format(item.get(h))`: a `datetime` renders as
`str(value.date())` (time of day stripped); everything else as `str(value)` —
including an absent field, whose `dict.get` yields Python `None` and hence
the string `None`. -/
def fmtCell (o : Option Value) : String :=
  match o with
  | some (Value.dt y mo d _ _ _) => dateStr y mo d
  | other => pyStrOpt other

/-- The data `_create_table` loads into the table: the caller-configured
header list, and one row per action holding `_format(item.get(h))` for each
header `h` in that order. -/
def createTableData (headers : List String) (actions : List Record) :
    List String × List (List String) :=
  (headers, actions.map (fun item => headers.map (fun h => fmtCell (item.get h))))

/-! ### Validator (`Reminders.validate_users`, `Reminders.validate_actions`) -/

/-- `Reminders.valid_string(value)`. -/
def valid_string (o : Option Value) : Bool :=
  match o with
  | some (Value.str s) => ¬s.isEmpty
  | _ => false

/-- `Reminders.valid_date(value)` (`datetime.datetime` is a
`datetime.date`). -/
def valid_date (o : Option Value) : Bool :=
  match o with
  | some (Value.dt _ _ _ _ _ _) => true
  | _ => false

/-- Python string `<` (lexicographic by code point), as `sorted` uses. -/
def strLe (a b : String) : Bool := a ≤ b

/-- Stable insertion into a sorted list: the element goes after every
existing element that is `≤` it, matching Python's stable `sorted`. -/
def insSorted (x : String) : List String → List String
  | [] => [x]
  | y :: ys => if strLe y x then y :: insSorted x ys else x :: y :: ys

/-- Python `sorted` on strings. -/
def sortStrings (l : List String) : List String := l.foldl (fun acc x => insSorted x acc) []

/-- `'/'.join(sorted(missing))` where `missing = fields - record.keys()`:
the referenced field names absent from the record, sorted.  `fields` is
duplicate-free (a Python set), so no name repeats. -/
def missingJoined (fields : List String) (r : Record) : List String :=
  sortStrings (fields.filter (fun f => ¬r.hasKey f))

/-- The per-user validity test and message of `validate_users`, for the
computed referenced-field set `fields`. -/
def userIssue (fields : List String) (hdrEmail hdrUser : Option String)
    (user : Record) : Option String :=
  let reasons :=
    (if valid_string (user.getOpt hdrEmail) then [] else ["missing email"]) ++
    (match missingJoined fields user with
     | [] => []
     | ms => ["missing email fields " ++ String.intercalate "/" ms])
  if reasons.isEmpty then Option.none
  else some (pyStrOpt (user.getOpt hdrUser) ++ " (" ++ pyStrOpt (user.get ROW_HEADER)
        ++ ") error(s): " ++ String.intercalate ", " reasons)

/-- The referenced-field set of `validate_users`: placeholder names of both
templates minus the `days` pseudo-field and the configured email field
(`set.discard` of an unset header removes nothing). -/
def userFields (preamble close : String) (hdrEmail : Option String) : List String :=
  (firstAppearance (get_fields preamble ++ get_fields close)).filter
    (fun f => ¬f = "days" ∧ ¬(some f = hdrEmail))

/-- `Reminders.validate_users(users)` given the configured preamble, closing,
email header and user-id header. -/
def validate_users (preamble close : String) (hdrEmail hdrUser : Option String)
    (users : List Record) : List String :=
  let fields := userFields preamble close hdrEmail
  users.foldl (fun errors user =>
    match userIssue fields hdrEmail hdrUser user with
    | Option.none => errors
    | some msg => errors ++ [msg]) []

/-- The per-action validity test and message of `validate_actions`, for the
computed required-column set `fields`. -/
def actionIssue (fields : List String) (hdrUser hdrDue hdrId : Option String)
    (action : Record) : Option String :=
  let reasons :=
    (if valid_string (action.getOpt hdrUser) then [] else ["missing assignment"]) ++
    (if valid_date (action.getOpt hdrDue) then [] else ["missing due date"]) ++
    (match missingJoined fields action with
     | [] => []
     | ms => ["missing table fields " ++ String.intercalate "/" ms])
  if reasons.isEmpty then Option.none
  else some (pyStrOpt (action.getOpt hdrId) ++ " (" ++ pyStrOpt (action.get ROW_HEADER)
        ++ ") error(s): " ++ String.intercalate ", " reasons)

/-- The required-column set of `validate_actions`: the configured table
headers minus the assignee and due-date fields. -/
def actionFields (tableHeaders : List String) (hdrUser hdrDue : Option String) : List String :=
  (firstAppearance tableHeaders).filter (fun f => ¬(some f = hdrUser) ∧ ¬(some f = hdrDue))

/-- `Reminders.validate_actions(actions)` given the configured table headers,
user header, due header and id header. -/
def validate_actions (tableHeaders : List String) (hdrUser hdrDue hdrId : Option String)
    (actions : List Record) : List String :=
  let fields := actionFields tableHeaders hdrUser hdrDue
  actions.foldl (fun errors action =>
    match actionIssue fields hdrUser hdrDue hdrId action with
    | Option.none => errors
    | some msg => errors ++ [msg]) []

/-! ### Sheet ingestion (`Reminders.sheet_to_dict`)

The pandas `ExcelFile`/`parse`/`to_dict` boundary is modelled as the raw
column data it yields: per header, the cell list in row order.  The code then
builds one dict per row (absent cells default to the empty string) and sets
the synthetic `_row` provenance field to `"<sheetname>:<row + 1>"`. -/

/-- `Reminders.sheet_to_dict` given the parsed column data.  Raises
(`max()` of an empty sequence) when the sheet has no columns. -/
def sheet_to_dict (sheetname : String) (cols : List (String × List Value)) :
    Except Err (List Record) :=
  match cols.map (fun c => c.2.length) with
  | [] => Except.error (Err.valueError "max() arg is an empty sequence")
  | n :: ns =>
      let numValues := ns.foldl max n
      Except.ok ((List.range numValues).map (fun row =>
        Record.set (cols.map (fun c => (c.1, c.2.getD row (Value.str ""))))
          ROW_HEADER (Value.str (sheetname ++ ":" ++ toString (row + 1)))))

/-! ### Delivery orchestrator (`send_all_emails`, `interactive_send_email`)

The SMTP transport is a boundary; the model records the session-lifecycle
events the code performs on it, so that "the session is closed on every exit
path" is a statement about traces.  `sendOk i` is the transport outcome of
the `i`-th `sendmail` call (`false` = the call raises). -/

/-- Session-lifecycle events on the mail transport. -/
inductive MailEv where
  | opened
  | sent (toAddr : Option Value)
  | closed
  deriving DecidableEq, Repr

/-- An SMTP failure surfacing from `sendmail` (`smtplib` exceptions). -/
def smtpFailure : Err := Err.valueError "SMTPException"

/-- The configuration fields the mailer consumes. -/
structure MCfg where
  preamble : Option String
  close : Option String
  hdrEmail : Option String
  hdrUser : Option String
  deriving Repr

/-- `substitute(template, user, days)` where the template comes from the
configuration and may be unset; `re.sub` on `None` raises `TypeError`. -/
def substituteOpt (template : Option String) (user : Record) (days : Int) :
    Except Err String :=
  match template with
  | some t => substitute t user days
  | Option.none => Except.error Err.typeError

/-- `Reminders.send_email_via_server(server, user, actions, days)`:
substitutes the preamble and closing (either may raise), composes the
message, and performs one `sendmail` whose outcome is `ok`.  A `None` user
(an unmaterialisable grouping key) raises at the first attribute access. -/
def send_email_via_server (cfg : MCfg) (ok : Bool) (user : Option Record) (days : Int) :
    Except Err Unit := do
  match user with
  | Option.none => Except.error Err.typeError
  | some u =>
      let _intro ← substituteOpt cfg.preamble u days
      let _closing ← substituteOpt cfg.close u days
      if ok then Except.ok () else Except.error smtpFailure

/-- The send loop of `send_all_emails` after the session is opened: one send
per (user, actions) pair until the first exception. -/
def bulkLoop (cfg : MCfg) (days : Int) (sendOk : Nat → Bool) :
    Nat → List (Option Record × List Record) → List MailEv × Option Err
  | _, [] => ([], Option.none)
  | i, (user, _) :: rest =>
      match send_email_via_server cfg (sendOk i) user days with
      | Except.error e => ([], some e)
      | Except.ok _ =>
          let (t, r) := bulkLoop cfg days sendOk (i + 1) rest
          (MailEv.sent ((user.getD []).getOpt cfg.hdrEmail) :: t, r)

/-- `Reminders.send_all_emails(user_actions, days)`: first the summary print
loop (`user.get(...)` raises before any session exists when a user is
`None`), then the session opens, every user is sent to, and only then
`server.quit()` — the loop has no `try`/`finally`. -/
def send_all_emails (cfg : MCfg) (userActions : List (Option Record × List Record))
    (days : Int) (sendOk : Nat → Bool) : List MailEv × Except Err Unit :=
  if userActions.any (fun p => p.1.isNone) then ([], Except.error Err.typeError)
  else
    match bulkLoop cfg days sendOk 0 userActions with
    | (t, Option.none) => (MailEv.opened :: t ++ [MailEv.closed], Except.ok ())
    | (t, some e) => (MailEv.opened :: t, Except.error e)

/-- `Reminders.prompt_for_what`: consume operator input lines until one
lower-cases to `skip`, `email` or `exit` (anything else — including `show` —
re-prompts); end of input is `EOFError` from `input()`. -/
def prompt_for_what : List String → Except Err (String × List String)
  | [] => Except.error Err.eofError
  | s :: rest =>
      let w := pyLower s
      if w = "skip" ∨ w = "email" ∨ w = "exit" then Except.ok (w, rest)
      else prompt_for_what rest

/-- The loop of `interactive_send_email`: per pair, prompt; `exit` breaks;
`email` lazily opens the session once and sends.  Returns the event trace,
the exception (if one escaped) and whether the session is open when the loop
stops. -/
def iLoop (cfg : MCfg) (days : Int) (sendOk : Nat → Bool) :
    List (Option Record × List Record) → List String → Nat → Bool →
    List MailEv × Option Err × Bool
  | [], _, _, srv => ([], Option.none, srv)
  | (user, _) :: rest, inputs, i, srv =>
      match user with
      | Option.none => ([], some Err.typeError, srv)
      | some _ =>
          match prompt_for_what inputs with
          | Except.error e => ([], some e, srv)
          | Except.ok (w, inputs') =>
              if w = "exit" then ([], Option.none, srv)
              else if w = "email" then
                let evs0 := if srv then [] else [MailEv.opened]
                match send_email_via_server cfg (sendOk i) user days with
                | Except.error e => (evs0, some e, true)
                | Except.ok _ =>
                    let (t, r, srv') := iLoop cfg days sendOk rest inputs' (i + 1) true
                    (evs0 ++ MailEv.sent ((user.getD []).getOpt cfg.hdrEmail) :: t, r, srv')
              else
                iLoop cfg days sendOk rest inputs' i srv

/-- `Reminders.interactive_send_email(user_actions, days)`: walk the pairs;
on normal loop termination (`exit` included) `server.quit()` runs when a
session was opened; an exception skips it. -/
def interactive_send_email (cfg : MCfg) (userActions : List (Option Record × List Record))
    (inputs : List String) (days : Int) (sendOk : Nat → Bool) :
    List MailEv × Except Err Unit :=
  match iLoop cfg days sendOk userActions inputs 0 false with
  | (t, Option.none, srv) => (t ++ (if srv then [MailEv.closed] else []), Except.ok ())
  | (t, some e, _) => (t, Except.error e)

/-! ### Configuration and `Reminders.run` -/

/-- The mutable `Reminders` configuration state; all fields start as Python
`None` and `update_config` merges truthy config values over them. -/
structure Cfg where
  spreadsheet : Option String := Option.none
  tab_user : Option String := Option.none
  tab_action : Option String := Option.none
  hdr_user : Option String := Option.none
  hdr_email : Option String := Option.none
  hdr_id : Option String := Option.none
  hdr_due : Option String := Option.none
  hdr_status : Option String := Option.none
  mail_server : Option String := Option.none
  mail_port : Option String := Option.none
  mail_from : Option String := Option.none
  mail_password : Option String := Option.none
  mail_subject : Option String := Option.none
  mail_cc : Option (List String) := Option.none
  msg_preamble : Option String := Option.none
  msg_close : Option String := Option.none
  msg_table_headers : Option (List String) := Option.none
  msg_table_align : Option (List (String × String)) := Option.none
  deriving Repr

/-- Python truthiness of an optional string (`None` and `''` are falsy). -/
def truthyS (o : Option String) : Bool :=
  match o with
  | some s => ¬s.isEmpty
  | Option.none => false

/-- Python truthiness of an optional list. -/
def truthyL (o : Option (List String)) : Bool :=
  match o with
  | some l => ¬l.isEmpty
  | Option.none => false

/-- `a or b` over possibly-unset strings (Python falsy chaining). -/
def orFalsy (a b : Option String) : Option String :=
  if truthyS a then a else b

/-- `Reminders.check_config()`: the required-field checks, in source order. -/
def check_config (st : Cfg) : List String :=
  (if truthyS st.tab_action then [] else ["Missing spreadsheet tab name for actions"]) ++
  (if truthyS st.tab_user then [] else ["Missing spreadsheet tab name for users"]) ++
  (if truthyS st.hdr_user then [] else ["Missing user/action user-id field"]) ++
  (if truthyS st.hdr_email then [] else ["Missing user email field"]) ++
  (if truthyS st.hdr_id then [] else ["Missing action identifier field"]) ++
  (if truthyS st.hdr_due then [] else ["Missing action due date field"]) ++
  (if truthyS st.hdr_status then [] else ["Missing action status field"]) ++
  (if truthyS st.mail_server ∧ truthyS st.mail_port then [] else ["Missing mail server or port"]) ++
  (if truthyS st.mail_from then [] else ["Missing mail from address"]) ++
  (if truthyS st.mail_subject then [] else ["Missing mail subject"]) ++
  (if truthyL st.msg_table_headers then [] else ["Missing message table headers"])

/-- The parsed command-line arguments (`argparse` is a boundary; `days`
defaults to 14 there). -/
structure Args where
  config : Option String := Option.none
  spreadsheet : Option String := Option.none
  person : Option String := Option.none
  days : Int := 14
  interactive : Bool := false

/-- A calendar timestamp for comparisons (`datetime` tuple). -/
abbrev Dt := Nat × Nat × Nat × Nat × Nat × Nat

/-- Lexicographic `<` on number lists (Python tuple comparison). -/
def lexLtNat : List Nat → List Nat → Bool
  | [], [] => false
  | [], _ :: _ => true
  | _ :: _, [] => false
  | a :: as, b :: bs => a < b || (a = b && lexLtNat as bs)

/-- `datetime` `<`, lexicographic on (y, mo, d, hh, mi, ss). -/
def dtLt (a b : Dt) : Bool :=
  lexLtNat [a.1, a.2.1, a.2.2.1, a.2.2.2.1, a.2.2.2.2.1, a.2.2.2.2.2]
    [b.1, b.2.1, b.2.2.1, b.2.2.2.1, b.2.2.2.2.1, b.2.2.2.2.2]

/-- `date` `<`, lexicographic on (y, mo, d). -/
def trLt (a b : Nat × Nat × Nat) : Bool :=
  lexLtNat [a.1, a.2.1, a.2.2] [b.1, b.2.1, b.2.2]

/-- The external collaborators `run` drives, as the spec's boundaries:
the file system probe, the Record Store (`sheet_to_dict` on a real
workbook), config parsing/merging, `datetime.now() + timedelta(days)`,
the transport outcomes and the operator input stream. -/
structure Env where
  isFile : String → Bool
  load : String → Option String → List Record
  applyConfig : String → Cfg → Cfg
  beforeDt : Int → Dt
  sendOk : Nat → Bool
  inputs : List String

/-- `_.get(self.hdr_due) < before`: defined for date values, a `TypeError`
for anything else (including a missing field). -/
def dueLt (hdrDue : Option String) (before : Dt) (a : Record) : Except Err Bool :=
  match a.getOpt hdrDue with
  | some (Value.dt y mo d hh mi ss) => Except.ok (dtLt (y, mo, d, hh, mi, ss) before)
  | _ => Except.error Err.typeError

/-- A Python list comprehension whose predicate may raise. -/
def pyFilterM (p : Record → Except Err Bool) : List Record → Except Err (List Record)
  | [] => Except.ok []
  | a :: t => do
      let keep ← p a
      let rest ← pyFilterM p t
      Except.ok (if keep then a :: rest else rest)

/-- The sort key `self._get_time(i[self.hdr_due])`; every element reaching
the sort has a date value there (the due filter raised otherwise). -/
def dueKey (hdrDue : Option String) (a : Record) : Nat × Nat × Nat :=
  match a.getOpt hdrDue with
  | some (Value.dt y mo d _ _ _) => (y, mo, d)
  | _ => (0, 0, 0)

/-- Stable insertion used to model Python's stable `sorted`: a later
element goes after every earlier one whose key is not greater. -/
def insByKey (key : Record → Nat × Nat × Nat) (x : Record) : List Record → List Record
  | [] => [x]
  | y :: ys => if ¬trLt (key x) (key y) then y :: insByKey key x ys else x :: y :: ys

/-- `sorted(actions, key=lambda i: self._get_time(i[self.hdr_due]))`. -/
def sortByDue (hdrDue : Option String) (l : List Record) : List Record :=
  l.foldl (fun acc x => insByKey (dueKey hdrDue) x acc) []

/-- Python `dict ==`: same key set, same value per key (order-insensitive). -/
def recordEqPy (a b : Record) : Bool :=
  a.keys.all (fun k => b.hasKey k) ∧ b.keys.all (fun k => a.hasKey k) ∧
    a.keys.all (fun k => a.get k = b.get k)

/-- Python `u == user` where either side may be `None`. -/
def optRecEq (a b : Option Record) : Bool :=
  match a, b with
  | some x, some y => recordEqPy x y
  | Option.none, Option.none => true
  | _, _ => false

/-- The mailer configuration slice of the run state. -/
def mcfgOf (st : Cfg) : MCfg :=
  { preamble := st.msg_preamble, close := st.msg_close,
    hdrEmail := st.hdr_email, hdrUser := st.hdr_user }

/-- The person-flag narrowing step of `run`: `if args.person:` is Python
truthiness, so an absent or empty name skips the narrowing; otherwise
resolve the queried person
(`find_user` may raise `AmbiguousUser`) and keep only that person's pairs
(Python `==`, where an unresolved person compares unequal to every dict). -/
def personFilter (users : List Record) (person : Option String)
    (ua : List (Option Record × List Record)) :
    Except Err (List (Option Record × List Record)) :=
  match person with
  | some p =>
      if p.isEmpty then Except.ok ua
      else do
        let target ← find_user users p
        Except.ok (ua.filter (fun q => optRecEq q.1 target))
  | Option.none => Except.ok ua

/-- `Reminders.run` from the configuration-complete point on: spreadsheet
check, user validation (code 2), action validation (code 3), the status and
due-window filters, sort, correlation, the optional person filter, the
nothing-to-do report (code 0) and the delivery step (code 0 on success). -/
def runFromData (st : Cfg) (env : Env) (args : Args) (days : Int) (sp : String) :
    Except Err Int := do
  let users := env.load sp st.tab_user
  match st.msg_preamble, st.msg_close with
  | some pre, some clo =>
      if ¬(validate_users pre clo st.hdr_email st.hdr_user users).isEmpty then
        Except.ok 2
      else
        let actions := env.load sp st.tab_action
        match st.msg_table_headers with
        | some ths =>
            if ¬(validate_actions ths st.hdr_user st.hdr_due st.hdr_id actions).isEmpty then
              Except.ok 3
            else do
              let openA := actions.filter
                (fun a => a.getOpt st.hdr_status = some (Value.str "Open"))
              let dueA ← pyFilterM (dueLt st.hdr_due (env.beforeDt days)) openA
              let sortedA := sortByDue st.hdr_due dueA
              let ua ← correlate users st.hdr_user st.hdr_id sortedA
              let ua2 ← personFilter users args.person ua
              if ua2.isEmpty then Except.ok 0
              else if ¬args.interactive then do
                (send_all_emails (mcfgOf st) ua2 days env.sendOk).2
                Except.ok 0
              else do
                (interactive_send_email (mcfgOf st) ua2 env.inputs days env.sendOk).2
                Except.ok 0
        | Option.none => Except.error Err.typeError
  | _, _ => Except.error Err.typeError

/-- `Reminders.run` after the optional config-file step: configuration
completeness (code 5), then the spreadsheet file check (code 1;
`Path(None)` raises when neither `-s` nor the config names one). -/
def runAfterConfig (st : Cfg) (env : Env) (args : Args) (days : Int) :
    Except Err Int :=
  if ¬(check_config st).isEmpty then Except.ok 5
  else
    match orFalsy args.spreadsheet st.spreadsheet with
    | Option.none => Except.error Err.typeError
    | some sp =>
        if ¬env.isFile sp then Except.ok 1
        else runFromData st env args days sp

/-- `Reminders.run(*sysargs)` given the already-parsed arguments:
`if args.config:` is Python truthiness, so only a non-empty config name is
probed — it must exist (code 4) and is merged into the state before
everything else; an absent or empty name skips the config step. -/
def run (st : Cfg) (env : Env) (args : Args) : Except Err Int :=
  let days := args.days
  match args.config with
  | some c =>
      if c.isEmpty then runAfterConfig st env args days
      else if ¬env.isFile c then Except.ok 4
      else runAfterConfig (env.applyConfig c st) env args days
  | Option.none => runAfterConfig st env args days

/-! ### Claim-language predicates and concrete data used by witnesses -/

/-- The claim's replacement text for one placeholder: the decimal form of
`days` for the literal inner name `days`, else the string value of the
like-named field (only consulted when it resolves). -/
def substValue (user : Record) (days : Int) (m : List Char) : List Char :=
  if innerOf m = "days" then (toString days).data
  else
    match user.get (innerOf m) with
    | some (Value.str s) => s.data
    | _ => []

/-- The claim's notion of an invalid person record. -/
def UserInvalid (fields : List String) (hdrEmail : Option String) (u : Record) : Prop :=
  valid_string (u.getOpt hdrEmail) = false ∨ ∃ f ∈ fields, u.hasKey f = false

/-- The claim's notion of an invalid action record. -/
def ActionInvalid (fields : List String) (hdrUser hdrDue : Option String) (a : Record) : Prop :=
  valid_string (a.getOpt hdrUser) = false ∨ valid_date (a.getOpt hdrDue) = false ∨
    ∃ f ∈ fields, a.hasKey f = false

instance decUserInvalid (fields : List String) (hdrEmail : Option String) (u : Record) :
    Decidable (UserInvalid fields hdrEmail u) := by
  unfold UserInvalid
  infer_instance

instance decActionInvalid (fields : List String) (hdrUser hdrDue : Option String)
    (a : Record) : Decidable (ActionInvalid fields hdrUser hdrDue a) := by
  unfold ActionInvalid
  infer_instance

/-- The claim's fully-substituted form of one line. -/
def replacedLine (user : Record) (days : Int) (l : List Char) : List Char :=
  match lineDecomp l with
  | Option.none => l
  | some (pre, m, post) => pre ++ substValue user days m ++ post

/-- The spec's candidate notion (spec §4.2): some string-typed field value
of the record contains the query (already normalised) as a substring of its
lower-cased form. -/
def MatchesSomeField (q : String) (u : Record) : Prop :=
  ∃ s, Value.str s ∈ u.values ∧ pyIn q (pyLower s) = true

/-- State machine for the spec-semantics extraction: `cur` is the content
accumulated (reversed) since the nearest unclosed `\x7b`. -/
def specNFGo : Option (List Char) → List Char → List String
  | _, [] => []
  | cur, c :: t =>
      if c = '{' then specNFGo (some []) t
      else
        match cur with
        | Option.none => specNFGo Option.none t
        | some acc =>
            if c = '}' then String.mk acc.reverse :: specNFGo Option.none t
            else specNFGo (some (c :: acc)) t

/-- Spec-semantics placeholder extraction for §4.5's "matches are delimited
by the nearest `\x7b` and `\x7d`": each placeholder on a line is matched
separately.  Used only to compare the spec's reading of `FIELD_RE` with the
code's. -/
def specNearestFields (l : List Char) : List String := specNFGo Option.none l

/-- An action whose every `/`-split assignee token resolves to exactly one
person (the hypothesis under which the correlator makes progress). -/
def ActionResolves (users : List Record) (hdrUser : Option String) (a : Record) : Prop :=
  ∃ s, a.getOpt hdrUser = some (Value.str s) ∧
    ∀ tok ∈ pySplit s '/', ∃ u, find_user users tok = Except.ok (some u)

/-- The `/`-split token list of an action, defaulted (used only where
`ActionResolves` guarantees the string shape). -/
def tokensD (hdrUser : Option String) (a : Record) : List String :=
  match a.getOpt hdrUser with
  | some (Value.str s) => pySplit s '/'
  | _ => []

/-- The grouping key a token resolves to: the resolved user's id-field
value (meaningful whenever the token resolves to exactly one person). -/
def keyOfTok (users : List Record) (hdrUser : Option String) (tok : String) : Option Value :=
  match find_user users tok with
  | Except.ok (some u) => u.getOpt hdrUser
  | _ => Option.none

/-- The flat (key, action) resolution sequence of the correlator's scan,
top-to-bottom over actions and left-to-right over tokens. -/
def flatPairs (users : List Record) (hdrUser : Option String) (actions : List Record) :
    List (Option Value × Record) :=
  actions.flatMap (fun a =>
    (tokensD hdrUser a).map (fun tok => (keyOfTok users hdrUser tok, a)))

/-- Replay of the accumulation loop on the flat sequence. -/
def groupOf (seq : List (Option Value × Record)) : Grouping :=
  seq.foldl (fun m p => groupAdd m p.1 p.2) []

/-- Lookup in the internal grouping (the accumulated action list of a key;
empty when the key is absent). -/
def groupGet (m : Grouping) (k : Option Value) : List Record :=
  ((m.find? (fun p => p.1 = k)).map (fun p => p.2)).getD []

/-- Totalised materialisation (agrees with `materializeKey` whenever the
latter succeeds). -/
def matD (users : List Record) (k : Option Value) : Option Record :=
  match materializeKey users k with
  | Except.ok u => u
  | Except.error _ => Option.none

/-- Pointwise replacement of the re-assigned action record. -/
def replaceBy (a a' : Record) (x : Record) : Record :=
  if x = a then a' else x

/-- A fresh configuration state (all fields Python `None`). -/
def cfg0 : Cfg := {}

/-- A concrete environment whose file-system probe rejects every path. -/
def env0 : Env where
  isFile := fun _ => false
  load := fun _ _ => []
  applyConfig := fun _ c => c
  beforeDt := fun _ => (0, 0, 0, 0, 0, 0)
  sendOk := fun _ => true
  inputs := []

/-- Concrete arguments naming a configuration file. -/
def args0 : Args := { config := some "reminders.ini" }

/-- Example person record (mirrors the repository's example workbook). -/
def fredR : Record :=
  [("User", Value.str "Fred Flintstone"), ("Email", Value.str "fred@x.com"),
   (ROW_HEADER, Value.str "Users:1")]

/-- Example person record. -/
def wilmaR : Record :=
  [("User", Value.str "Wilma Flintstone"), ("Email", Value.str "wilma@x.com"),
   (ROW_HEADER, Value.str "Users:2")]

/-- Example person record. -/
def barneyR : Record :=
  [("User", Value.str "Barney Rubble"), ("Email", Value.str "barney@x.com"),
   (ROW_HEADER, Value.str "Users:3")]

/-- Example action record assigned to two people at once. -/
def actFB : Record :=
  [("ID", Value.str "SG2"), ("User", Value.str "Fred/Barney"),
   ("Due Date", Value.dt 2030 3 24 0 0 0), ("Status", Value.str "Open"),
   (ROW_HEADER, Value.str "Actions:2")]

/-- The same example action with the two assignee tokens swapped. -/
def actBF : Record :=
  [("ID", Value.str "SG2"), ("User", Value.str "Barney/Fred"),
   ("Due Date", Value.dt 2030 3 24 0 0 0), ("Status", Value.str "Open"),
   (ROW_HEADER, Value.str "Actions:2")]

/-- Example action record assigned to a person nobody matches. -/
def actBam : Record :=
  [("ID", Value.str "FS1"), ("User", Value.str "Bam Bam"),
   ("Due Date", Value.dt 2030 4 1 0 0 0), ("Status", Value.str "Open"),
   (ROW_HEADER, Value.str "Actions:3")]

/-! ## Theorems -/

/-- One field passes the `find_user` test exactly when it is a string whose
lower-cased form contains the search text. -/
lemma fieldMatch_iff (q : String) (v : Value) :
    fieldMatch q v = true ↔ ∃ s, v = Value.str s ∧ pyIn q (pyLower s) = true := by
  cases v <;> simp [fieldMatch]

/-- The inner loop of `find_user` accepts a record exactly when the spec's
candidate predicate holds. -/
lemma userMatches_iff (q : String) (u : Record) :
    userMatches q u = true ↔ MatchesSomeField q u := by
  simp only [userMatches, List.any_eq_true, MatchesSomeField]
  constructor
  · rintro ⟨v, hv, hm⟩
    obtain ⟨s, rfl, hs⟩ := (fieldMatch_iff q v).mp hm
    exact ⟨s, hv, hs⟩
  · rintro ⟨s, hv, hs⟩
    exact ⟨Value.str s, hv, (fieldMatch_iff q _).mpr ⟨s, rfl, hs⟩⟩

/-- Claim C1: `find_user` normalises the query (`lower` + `strip`), collects
as candidates exactly the records with at least one string-typed field whose
lower-cased value contains the normalised query (each record at most once,
being a `filter`), returns `None` for zero candidates, the unique candidate
for one, and raises `AmbiguousUser` carrying the query text and every
candidate's provenance label, in encounter order, for two or more — never
silently returning one of several matches. -/
theorem C1_find_user_characterisation (users : List Record) (username : String) :
    (∀ u, u ∈ candidates users username ↔
        u ∈ users ∧ MatchesSomeField (normalizeQuery username) u) ∧
    (candidates users username = [] →
        find_user users username = Except.ok Option.none) ∧
    (∀ u, candidates users username = [u] →
        find_user users username = Except.ok (some u)) ∧
    (2 ≤ (candidates users username).length →
        find_user users username = Except.error (Err.ambiguousUser username
          ((candidates users username).map (fun u => u.get ROW_HEADER)))) := by
  refine ⟨?_, ?_, ?_, ?_⟩
  · intro u
    simp [candidates, List.mem_filter, userMatches_iff]
  · intro h
    simp [find_user, h]
  · intro u h
    simp [find_user, h]
  · intro h
    rcases hc : candidates users username with _ | ⟨a, _ | ⟨b, t⟩⟩
    · rw [hc] at h; simp at h
    · rw [hc] at h; simp at h
    · simp [find_user, hc]

/-- Witness for C1 at a concrete input: `"flintstone"` matches both example
records, so `find_user` raises `AmbiguousUser` with both provenance labels. -/
theorem C1_find_user_characterisation_witness :
    find_user [fredR, wilmaR] "flintstone" = Except.error (Err.ambiguousUser "flintstone"
      [some (Value.str "Users:1"), some (Value.str "Users:2")]) := by
  have h := (C1_find_user_characterisation [fredR, wilmaR] "flintstone").2.2.2 (by decide)
  rw [h]
  rfl

/-! ### The regex claims (C4, C3) -/

/-- A newline-free list is a single line. -/
lemma splitLines_no_nl {l : List Char} (h : '\n' ∉ l) : splitLines l = [l] := by
  induction l with
  | nil => rfl
  | cons c t ih =>
      have hc : ¬c = '\n' := fun hcn => h (hcn ▸ List.mem_cons_self c t)
      have ht : '\n' ∉ t := fun htn => h (List.mem_cons_of_mem c htn)
      simp only [splitLines, ih ht, decide_eq_true_eq]
      simp [hc]

/-- `takeWhile` consumes exactly a satisfying block before a failing head. -/
lemma takeWhile_block {p : Char → Bool} {pre t : List Char} {x : Char}
    (h : ∀ c ∈ pre, p c = true) (hx : p x = false) :
    (pre ++ x :: t).takeWhile p = pre := by
  induction pre with
  | nil => simp [List.takeWhile, hx]
  | cons a as ih =>
      have ha : p a = true := h a (List.mem_cons_self a as)
      simp only [List.cons_append, List.takeWhile, ha]
      rw [List.append_eq, ih (fun c hc => h c (List.mem_cons_of_mem a hc))]

/-- `dropWhile` drops exactly a satisfying block before a failing head. -/
lemma dropWhile_block {p : Char → Bool} {pre t : List Char} {x : Char}
    (h : ∀ c ∈ pre, p c = true) (hx : p x = false) :
    (pre ++ x :: t).dropWhile p = x :: t := by
  induction pre with
  | nil => simp [List.dropWhile, hx]
  | cons a as ih =>
      have ha : p a = true := h a (List.mem_cons_self a as)
      simp only [List.cons_append, List.dropWhile, ha]
      exact ih (fun c hc => h c (List.mem_cons_of_mem a hc))

/-- With no closing brace after it, the last `\x7d` of the line is the
explicit one: greedy backtracking stops there. -/
lemma takeToLast_block {mid post : List Char} (h : '}' ∉ post) :
    takeToLast '}' (mid ++ '}' :: post) = mid ++ ['}'] := by
  unfold takeToLast
  have hrev : ∀ c ∈ post.reverse, (decide ¬c = '}') = true := by
    intro c hc
    have hmem : c ∈ post := List.mem_reverse.mp hc
    simp only [decide_eq_true_eq]
    exact fun hcc => h (hcc ▸ hmem)
  have hx : (decide ¬('}' : Char) = '}') = false := by simp
  have hshape : (mid ++ '}' :: post).reverse = post.reverse ++ '}' :: mid.reverse := by
    rw [List.reverse_append, List.reverse_cons, List.append_assoc]
    rfl
  rw [hshape, dropWhile_block hrev hx, List.reverse_cons, List.reverse_reverse]

/-- The `FIELD_RE` match of a line with a first `\x7b` and a last `\x7d`:
everything from that `\x7b` to that `\x7d`, greedily. -/
lemma lineDecomp_eq {pre mid post : List Char} (h1 : '{' ∉ pre) (h3 : '}' ∉ post) :
    lineDecomp (pre ++ '{' :: (mid ++ '}' :: post)) =
      some (pre, '{' :: (mid ++ ['}']), post) := by
  have hpre : ∀ c ∈ pre, (decide ¬c = '{') = true := by
    intro c hc
    simp only [decide_eq_true_eq]
    exact fun he => h1 (he ▸ hc)
  have hx : (decide ¬('{' : Char) = '{') = false := by simp
  have hdrop := @dropWhile_block _ pre (mid ++ '}' :: post) '{' hpre hx
  have htake := @takeWhile_block _ pre (mid ++ '}' :: post) '{' hpre hx
  have hmem : ('}' : Char) ∈ mid ++ '}' :: post :=
    List.mem_append.mpr (Or.inr (List.mem_cons_self _ _))
  have hdropn : (mid ++ '}' :: post).drop (mid ++ ['}']).length = post := by
    have hsh : mid ++ '}' :: post = (mid ++ ['}']) ++ post := by simp
    rw [hsh, List.drop_left]
  unfold lineDecomp
  rw [hdrop]
  simp only [hmem, if_true, htake, takeToLast_block h3, hdropn]

/-- Membership in the `findall` result, in terms of lines and their match. -/
lemma mem_reFindall {s : String} {m : List Char} :
    m ∈ reFindall s ↔
      ∃ l ∈ splitLines s.data, ∃ pre post, lineDecomp l = some (pre, m, post) := by
  simp only [reFindall, List.mem_filterMap, Option.map_eq_some']
  constructor
  · rintro ⟨l, hl, d, hd, rfl⟩
    exact ⟨l, hl, d.1, d.2.2, by rw [hd]⟩
  · rintro ⟨l, hl, pre, post, hd⟩
    exact ⟨l, hl, (pre, m, post), hd, rfl⟩

/-- Claim C4 counterexample: on `"\x7ba\x7d \x7bb\x7d"` the code's
`get_fields` yields the single name `"a b"` (the greedy `FIELD_RE` spans
from the first `\x7b` to the last `\x7d` of the line), while the claim's
nearest-delimiter reading would yield the two names `"a"` and `"b"`. -/
theorem C4_counterexample :
    get_fields "\x7ba\x7d \x7bb\x7d" = ["a b"] ∧
    specNearestFields ("\x7ba\x7d \x7bb\x7d").data = ["a", "b"] ∧
    ¬get_fields "\x7ba\x7d \x7bb\x7d" = specNearestFields ("\x7ba\x7d \x7bb\x7d").data := by
  have h1 : get_fields "\x7ba\x7d \x7bb\x7d" = ["a b"] := rfl
  have h2 : specNearestFields ("\x7ba\x7d \x7bb\x7d").data = ["a", "b"] := rfl
  refine ⟨h1, h2, ?_⟩
  intro heq
  rw [h1, h2] at heq
  exact absurd (congrArg List.length heq) (by decide)

/-- Claim C4 as amended: a `FIELD_RE` match never crosses a line break, and
within a line it runs greedily from the line's first `\x7b` to its last
`\x7d` — so several brace pairs on one line merge into a single match — and
`get_fields` returns the distinct matches with every brace character
stripped.  Stated for an arbitrary single-line template decomposed around
its first `\x7b` and last `\x7d`. -/
theorem C4_greedy_fields (pre mid post : List Char)
    (hpre : '{' ∉ pre) (hpost : '}' ∉ post)
    (hnl : '\n' ∉ pre ++ '{' :: (mid ++ '}' :: post)) :
    reFindall (String.mk (pre ++ '{' :: (mid ++ '}' :: post))) =
      ['{' :: (mid ++ ['}'])] ∧
    get_fields (String.mk (pre ++ '{' :: (mid ++ '}' :: post))) =
      [String.mk (mid.filter (fun c => ¬c = '{' ∧ ¬c = '}'))] := by
  have hsplit : splitLines (String.mk (pre ++ '{' :: (mid ++ '}' :: post))).data =
      [pre ++ '{' :: (mid ++ '}' :: post)] := splitLines_no_nl hnl
  have hdec := @lineDecomp_eq pre mid post hpre hpost
  have hfind : reFindall (String.mk (pre ++ '{' :: (mid ++ '}' :: post))) =
      ['{' :: (mid ++ ['}'])] := by
    simp [reFindall, hsplit, hdec]
  refine ⟨hfind, ?_⟩
  have hfil : ('{' :: (mid ++ ['}'])).filter (fun c => ¬c = '{' ∧ ¬c = '}') =
      mid.filter (fun c => ¬c = '{' ∧ ¬c = '}') := by
    simp [List.filter_append]
  simp [get_fields, hfind, firstAppearance, hfil]

/-- Witness for C4's amended theorem at a concrete input. -/
theorem C4_greedy_fields_witness :
    reFindall "x\x7ba\x7d \x7bb\x7dy" = [("\x7ba\x7d \x7bb\x7d").data] ∧
    get_fields "x\x7ba\x7d \x7bb\x7dy" = ["a b"] := by
  have h := C4_greedy_fields ("x").data ("a\x7d \x7bb").data ("y").data
    (by decide) (by decide) (by decide)
  refine ⟨?_, ?_⟩
  · rw [show ("x\x7ba\x7d \x7bb\x7dy" : String) =
      String.mk (("x").data ++ '{' :: (("a\x7d \x7bb").data ++ '}' :: ("y").data)) from rfl]
    rw [h.1]
    rfl
  · rw [show ("x\x7ba\x7d \x7bb\x7dy" : String) =
      String.mk (("x").data ++ '{' :: (("a\x7d \x7bb").data ++ '}' :: ("y").data)) from rfl]
    rw [h.2]
    rfl

/-- A successful `dict.get` implies key membership. -/
lemma get_some_hasKey {r : Record} {k : String} {v : Value}
    (h : r.get k = some v) : r.hasKey k = true := by
  unfold Record.get at h
  cases hf : r.find? (fun p => p.1 = k) with
  | none => rw [hf] at h; cases h
  | some p =>
      have hp := List.find?_some hf
      have hmem := List.mem_of_find?_eq_some hf
      exact List.any_eq_true.mpr ⟨p, hmem, hp⟩

/-- `new_value` on a resolvable placeholder yields the claim's replacement. -/
lemma new_value_ok {user : Record} {days : Int} {group : List Char}
    (h : innerOf group = "days" ∨ ∃ s, user.get (innerOf group) = some (Value.str s)) :
    new_value user days group = Except.ok (substValue user days group) := by
  unfold new_value substValue
  rcases h with h | ⟨s, hs⟩
  · simp [h]
  · by_cases hd : innerOf group = "days"
    · simp [hd]
    · simp [hd, get_some_hasKey hs, hs]

/-- `new_value` on an absent placeholder raises `ValueError`. -/
lemma new_value_err {user : Record} {days : Int} {group : List Char}
    (hd : ¬innerOf group = "days") (hk : user.hasKey (innerOf group) = false) :
    new_value user days group =
      Except.error (Err.valueError ("Missing user field=\x27" ++ innerOf group ++ "\x27")) := by
  unfold new_value
  simp [hd, hk]

/-- `mapE` succeeds pointwise when every element does. -/
lemma mapE_ok_of_forall {α β : Type} {f : α → Except Err β} {g : α → β} {l : List α}
    (h : ∀ a ∈ l, f a = Except.ok (g a)) : mapE f l = Except.ok (l.map g) := by
  induction l with
  | nil => rfl
  | cons a t ih =>
      have ha := h a (List.mem_cons_self a t)
      have ht := ih (fun x hx => h x (List.mem_cons_of_mem a hx))
      simp only [mapE, ha, ht, List.map_cons]
      rfl

/-- A successful `mapE` means every element succeeded. -/
lemma mapE_ok_mem {α β : Type} {f : α → Except Err β} {l : List α} {r : List β}
    (h : mapE f l = Except.ok r) : ∀ a ∈ l, ∃ b, f a = Except.ok b := by
  induction l generalizing r with
  | nil => intro a ha; cases ha
  | cons x t ih =>
      intro a ha
      unfold mapE at h
      cases hf : f x with
      | error e => rw [hf] at h; cases h
      | ok b =>
          rw [hf] at h
          cases hm : mapE f t with
          | error e => rw [hm] at h; cases h
          | ok bs =>
              rw [hm] at h
              rcases List.mem_cons.mp ha with rfl | hat
              · exact ⟨b, hf⟩
              · exact ih hm a hat

/-- `subLine` on a line with a match and a succeeding replacement. -/
lemma subLine_ok {f : List Char → Except Err (List Char)} {l pre m post r : List Char}
    (hd : lineDecomp l = some (pre, m, post)) (hf : f m = Except.ok r) :
    subLine f l = Except.ok (pre ++ r ++ post) := by
  unfold subLine
  rw [hd]
  show (do
    let x ← f m
    Except.ok (pre ++ x ++ post)) = Except.ok (pre ++ r ++ post)
  rw [hf]
  rfl

/-- `subLine` propagates a raising replacement. -/
lemma subLine_err {f : List Char → Except Err (List Char)} {l pre m post : List Char} {e : Err}
    (hd : lineDecomp l = some (pre, m, post)) (hf : f m = Except.error e) :
    subLine f l = Except.error e := by
  unfold subLine
  rw [hd]
  show (do
    let x ← f m
    Except.ok (pre ++ x ++ post)) = Except.error e
  rw [hf]
  rfl

/-- Claim C3: `substitute` replaces a `days` placeholder with the decimal
form of the days parameter and every other placeholder with the like-named
field of the person record; when every placeholder resolves the full
substitution is returned, and when any placeholder names an absent field an
error is raised and no partially substituted string is returned (the result
is an exception, not a string). -/
theorem C3_substitute_total_or_nothing (template : String) (user : Record) (days : Int) :
    ((∀ m ∈ reFindall template, innerOf m = "days" ∨
        ∃ s, user.get (innerOf m) = some (Value.str s)) →
      substitute template user days = Except.ok (String.mk (joinLines
        ((splitLines template.data).map (replacedLine user days))))) ∧
    ((∃ m ∈ reFindall template, ¬innerOf m = "days" ∧ user.hasKey (innerOf m) = false) →
      ∃ e, substitute template user days = Except.error e) := by
  constructor
  · intro hres
    have hall : ∀ l ∈ splitLines template.data,
        subLine (new_value user days) l = Except.ok (replacedLine user days l) := by
      intro l hl
      cases hd : lineDecomp l with
      | none =>
          unfold subLine replacedLine
          rw [hd]
      | some d =>
          obtain ⟨pre, m, post⟩ := d
          have hm : m ∈ reFindall template := mem_reFindall.mpr ⟨l, hl, pre, post, hd⟩
          have hok := @new_value_ok user days m (hres m hm)
          unfold replacedLine
          rw [hd]
          exact subLine_ok hd hok
    unfold substitute reSub
    rw [mapE_ok_of_forall hall]
    rfl
  · rintro ⟨m, hm, hd, hk⟩
    cases hres : substitute template user days with
    | error e => exact ⟨e, rfl⟩
    | ok out =>
        exfalso
        unfold substitute reSub at hres
        cases hmap : mapE (subLine (new_value user days)) (splitLines template.data) with
        | error e => rw [hmap] at hres; cases hres
        | ok ls =>
            obtain ⟨l, hl, pre, post, hdec⟩ := mem_reFindall.mp hm
            obtain ⟨b, hb⟩ := mapE_ok_mem hmap l hl
            rw [subLine_err hdec (new_value_err hd hk)] at hb
            cases hb

/-- Witness for C3 at a concrete input: both placeholders resolve and the
fully substituted message is returned. -/
theorem C3_substitute_total_or_nothing_witness :
    substitute "Hi \x7bFirst\x7d,\nin \x7bdays\x7d days" [("First", Value.str "Fred")] 14 =
      Except.ok "Hi Fred,\nin 14 days" := by
  have h := (C3_substitute_total_or_nothing "Hi \x7bFirst\x7d,\nin \x7bdays\x7d days"
    [("First", Value.str "Fred")] 14).1 ?_
  · rw [h]
    rfl
  · intro m hm
    have hfd : reFindall "Hi \x7bFirst\x7d,\nin \x7bdays\x7d days" =
        [("\x7bFirst\x7d").data, ("\x7bdays\x7d").data] := rfl
    rw [hfd] at hm
    rcases List.mem_cons.mp hm with rfl | hm2
    · exact Or.inr ⟨"Fred", rfl⟩
    · rcases List.mem_cons.mp hm2 with rfl | hm3
      · exact Or.inl rfl
      · cases hm3

/-! ### The validator claim (C6) -/

/-- The error-collecting fold of both validators is a `filterMap`: no early
exit, one message per failing record, nothing for passing ones. -/
lemma foldl_collect {α : Type} (f : α → Option String) (acc : List String) (l : List α) :
    l.foldl (fun errors a =>
      match f a with
      | Option.none => errors
      | some m => errors ++ [m]) acc = acc ++ l.filterMap f := by
  induction l generalizing acc with
  | nil => simp
  | cons x t ih =>
      cases hf : f x with
      | none => simp only [List.foldl_cons, hf, ih, List.filterMap_cons, hf]
      | some m =>
          simp only [List.foldl_cons, hf, ih, List.filterMap_cons]
          simp [List.append_assoc]

/-- `filterMap` produces exactly one output per succeeding element. -/
lemma length_filterMap_eq_countP {α β : Type} (f : α → Option β) (l : List α) :
    (l.filterMap f).length = l.countP (fun a => (f a).isSome) := by
  induction l with
  | nil => rfl
  | cons x t ih =>
      cases hf : f x <;>
        simp [List.filterMap_cons, hf, List.countP_cons, ih]

/-- Stable insertion grows the list by one. -/
lemma length_insSorted (x : String) (l : List String) :
    (insSorted x l).length = l.length + 1 := by
  induction l with
  | nil => rfl
  | cons y ys ih =>
      unfold insSorted
      by_cases h : strLe y x <;> simp [h, ih]

/-- Sorting preserves length. -/
lemma length_sortStrings (l : List String) : (sortStrings l).length = l.length := by
  suffices h : ∀ acc : List String,
      (l.foldl (fun a x => insSorted x a) acc).length = acc.length + l.length by
    simpa using h []
  induction l with
  | nil => intro acc; simp
  | cons x t ih =>
      intro acc
      rw [List.foldl_cons, ih (insSorted x acc), length_insSorted]
      simp only [List.length_cons]
      omega

/-- No missing-field complaint exactly when every referenced field is a key. -/
lemma missingJoined_eq_nil_iff (fields : List String) (r : Record) :
    missingJoined fields r = [] ↔ ∀ f ∈ fields, r.hasKey f = true := by
  unfold missingJoined
  constructor
  · intro h f hf
    have hlen := congrArg List.length h
    rw [length_sortStrings] at hlen
    have hnil : fields.filter (fun f => ¬r.hasKey f) = [] :=
      List.eq_nil_of_length_eq_zero hlen
    by_contra hk
    have hmem : f ∈ fields.filter (fun f => ¬r.hasKey f) :=
      List.mem_filter.mpr ⟨hf, by simp [Bool.eq_false_iff.mpr hk]⟩
    rw [hnil] at hmem
    cases hmem
  · intro h
    have hnil : fields.filter (fun f => ¬r.hasKey f) = [] := by
      rw [List.filter_eq_nil_iff]
      intro f hf
      simp [h f hf]
    rw [hnil]
    rfl

/-- A nonempty missing list yields an absent referenced field. -/
lemma missing_exists_of_cons {fields : List String} {r : Record} {m : String}
    {ms : List String} (hm : missingJoined fields r = m :: ms) :
    ∃ f ∈ fields, r.hasKey f = false := by
  by_contra hc
  push_neg at hc
  have hnil : missingJoined fields r = [] :=
    (missingJoined_eq_nil_iff fields r).mpr (fun f hf => by
      have := hc f hf
      simpa using this)
  rw [hm] at hnil
  cases hnil

/-- A person yields a message exactly when invalid. -/
lemma userIssue_isSome_iff (fields : List String) (hdrEmail hdrUser : Option String)
    (u : Record) :
    (userIssue fields hdrEmail hdrUser u).isSome ↔ UserInvalid fields hdrEmail u := by
  unfold userIssue UserInvalid
  by_cases he : valid_string (u.getOpt hdrEmail)
  · cases hm : missingJoined fields u with
    | nil =>
        have hall := (missingJoined_eq_nil_iff fields u).mp hm
        simp only [he, hm]
        constructor
        · intro h; simp at h
        · rintro (h | ⟨f, hf, hk⟩)
          · simp at h
          · rw [hall f hf] at hk; simp at hk
    | cons m ms =>
        have hex := missing_exists_of_cons hm
        simp [he, hm, hex]
  · have hb : valid_string (u.getOpt hdrEmail) = false := Bool.eq_false_iff.mpr he
    cases hm : missingJoined fields u <;> simp [hb, hm]

/-- An action yields a message exactly when invalid. -/
lemma actionIssue_isSome_iff (fields : List String) (hdrUser hdrDue hdrId : Option String)
    (a : Record) :
    (actionIssue fields hdrUser hdrDue hdrId a).isSome ↔
      ActionInvalid fields hdrUser hdrDue a := by
  unfold actionIssue ActionInvalid
  by_cases hu : valid_string (a.getOpt hdrUser)
  · by_cases hd : valid_date (a.getOpt hdrDue)
    · cases hm : missingJoined fields a with
      | nil =>
          have hall := (missingJoined_eq_nil_iff fields a).mp hm
          simp only [hu, hd, hm]
          constructor
          · intro h; simp at h
          · rintro (h | h | ⟨f, hf, hk⟩)
            · simp at h
            · simp at h
            · rw [hall f hf] at hk; simp at hk
      | cons m ms =>
          have hex := missing_exists_of_cons hm
          simp [hu, hd, hm, hex]
    · have hb : valid_date (a.getOpt hdrDue) = false := Bool.eq_false_iff.mpr hd
      cases hm : missingJoined fields a <;> simp [hu, hb, hm]
  · have hb : valid_string (a.getOpt hdrUser) = false := Bool.eq_false_iff.mpr hu
    cases hm : missingJoined fields a <;> simp [hb, hm]

/-- Claim C6: both validators are fail-complete: they traverse the whole
input in one pass, producing exactly one message per invalid record and none
for valid records, never stopping at the first violation — stated as an
exact `filterMap` characterisation plus a message count equal to the number
of invalid records. -/
theorem C6_validators_fail_complete (preamble close : String)
    (hdrEmail hdrUser hdrDue hdrId : Option String) (tableHeaders : List String)
    (users actions : List Record) :
    (validate_users preamble close hdrEmail hdrUser users =
      users.filterMap (userIssue (userFields preamble close hdrEmail) hdrEmail hdrUser)) ∧
    (validate_users preamble close hdrEmail hdrUser users).length =
      (users.filter (fun u =>
        decide (UserInvalid (userFields preamble close hdrEmail) hdrEmail u))).length ∧
    (validate_actions tableHeaders hdrUser hdrDue hdrId actions =
      actions.filterMap
        (actionIssue (actionFields tableHeaders hdrUser hdrDue) hdrUser hdrDue hdrId)) ∧
    (validate_actions tableHeaders hdrUser hdrDue hdrId actions).length =
      (actions.filter (fun a =>
        decide (ActionInvalid (actionFields tableHeaders hdrUser hdrDue) hdrUser hdrDue a))).length := by
  have hu : validate_users preamble close hdrEmail hdrUser users =
      users.filterMap (userIssue (userFields preamble close hdrEmail) hdrEmail hdrUser) := by
    unfold validate_users
    rw [foldl_collect]
    rfl
  have ha : validate_actions tableHeaders hdrUser hdrDue hdrId actions =
      actions.filterMap
        (actionIssue (actionFields tableHeaders hdrUser hdrDue) hdrUser hdrDue hdrId) := by
    unfold validate_actions
    rw [foldl_collect]
    rfl
  refine ⟨hu, ?_, ha, ?_⟩
  · rw [hu, length_filterMap_eq_countP, ← List.countP_eq_length_filter]
    apply List.countP_congr
    intro u _
    simp [userIssue_isSome_iff]
  · rw [ha, length_filterMap_eq_countP, ← List.countP_eq_length_filter]
    apply List.countP_congr
    intro a _
    simp [actionIssue_isSome_iff]

/-! ### The correlator claims (C2, C7) -/

/-- Bind on a success reduces. -/
lemma bindE_ok {α β : Type} (x : α) (f : α → Except Err β) :
    (Except.ok x >>= f) = f x := rfl

/-- Bind on an exception short-circuits. -/
lemma bindE_err {α β : Type} (e : Err) (f : α → Except Err β) :
    ((Except.error e : Except Err α) >>= f) = Except.error e := rfl

/-- Unfolding of `foldE` on a cons. -/
lemma foldE_cons {σ α : Type} (f : σ → α → Except Err σ) (s : σ) (a : α) (t : List α) :
    foldE f s (a :: t) = (f s a >>= fun s' => foldE f s' t) := rfl

/-- `foldE` over an append runs the two halves in sequence. -/
lemma foldE_append {σ α : Type} (f : σ → α → Except Err σ) (s : σ) (l1 l2 : List α) :
    foldE f s (l1 ++ l2) = (foldE f s l1 >>= fun s' => foldE f s' l2) := by
  induction l1 generalizing s with
  | nil => rfl
  | cons a t ih =>
      rw [List.cons_append, foldE_cons, foldE_cons]
      cases hf : f s a with
      | error e => rfl
      | ok s1 =>
          rw [bindE_ok, bindE_ok]
          exact ih s1

/-- A token that resolves to one person extends that person's list. -/
lemma procToken_ok {users : List Record} {hU hI : Option String} {a : Record}
    {m : Grouping} {tok : String} {u : Record}
    (h : find_user users tok = Except.ok (some u)) :
    procToken users hU hI a m tok = Except.ok (groupAdd m (u.getOpt hU) a) := by
  unfold procToken
  rw [h]
  rfl

/-- A token that resolves to nobody raises `MissingUser` with the token, the
action's id-field value and its provenance label. -/
lemma procToken_missing {users : List Record} {hU hI : Option String} {a : Record}
    {m : Grouping} {tok : String}
    (h : find_user users tok = Except.ok Option.none) :
    procToken users hU hI a m tok =
      Except.error (Err.missingUser tok (a.getOpt hI) (a.get ROW_HEADER)) := by
  unfold procToken
  rw [h]
  rfl

/-- The token loop of one action, when every token resolves. -/
lemma foldE_tokens_ok {users : List Record} {hU hI : Option String} {a : Record}
    {toks : List String}
    (h : ∀ tok ∈ toks, ∃ u, find_user users tok = Except.ok (some u)) (m : Grouping) :
    foldE (procToken users hU hI a) m toks =
      Except.ok (toks.foldl (fun m' tok => groupAdd m' (keyOfTok users hU tok) a) m) := by
  induction toks generalizing m with
  | nil => rfl
  | cons tok t ih =>
      obtain ⟨u, hu⟩ := h tok (List.mem_cons_self tok t)
      have hk : keyOfTok users hU tok = u.getOpt hU := by
        unfold keyOfTok
        rw [hu]
      rw [foldE_cons, procToken_ok hu, bindE_ok, List.foldl_cons, hk]
      exact ih (fun x hx => h x (List.mem_cons_of_mem _ hx)) _

/-- One outer-loop step on a fully-resolving action. -/
lemma corrStep_ok {users : List Record} {hU hI : Option String} {a : Record}
    (h : ActionResolves users hU a) (m : Grouping) :
    corrStep users hU hI m a = Except.ok
      ((tokensD hU a).foldl (fun m' tok => groupAdd m' (keyOfTok users hU tok) a) m) := by
  obtain ⟨s, hs, htoks⟩ := h
  have htd : tokensD hU a = pySplit s '/' := by
    unfold tokensD
    rw [hs]
  have hto : tokensOf hU a = Except.ok (pySplit s '/') := by
    unfold tokensOf
    rw [hs]
  unfold corrStep
  rw [hto, bindE_ok, htd]
  exact foldE_tokens_ok htoks m

/-- The whole accumulation loop, when every action fully resolves, replays
the flat resolution sequence. -/
lemma foldE_corrStep_ok {users : List Record} {hU hI : Option String}
    {actions : List Record}
    (h : ∀ a ∈ actions, ActionResolves users hU a) (m0 : Grouping) :
    foldE (corrStep users hU hI) m0 actions = Except.ok
      ((flatPairs users hU actions).foldl (fun m p => groupAdd m p.1 p.2) m0) := by
  induction actions generalizing m0 with
  | nil => rfl
  | cons a t ih =>
      have ha := h a (List.mem_cons_self a t)
      rw [foldE_cons, corrStep_ok ha, bindE_ok,
        ih (fun x hx => h x (List.mem_cons_of_mem _ hx))]
      unfold flatPairs
      rw [List.flatMap_cons, List.foldl_append, List.foldl_map]

/-- `correlateMap` under full resolution. -/
lemma correlateMap_ok {users : List Record} {hU hI : Option String}
    {actions : List Record}
    (h : ∀ a ∈ actions, ActionResolves users hU a) :
    correlateMap users hU hI actions =
      Except.ok (groupOf (flatPairs users hU actions)) := by
  unfold correlateMap groupOf
  exact foldE_corrStep_ok h []

/-- Claim C2: the first `/`-split assignee token that resolves to no person
makes `correlate` raise `MissingUser` carrying the queried token, the
action's id-field value and the action's provenance label; the error is the
same whatever actions follow (nothing further is scanned: the trailing
actions `post` and trailing tokens `tks2` are arbitrary and absent from the
error), and no grouping is returned. -/
theorem C2_correlate_missing_user_fail_fast (users pre : List Record)
    (hU hI : Option String) (a : Record) (s : String) (tks1 tks2 : List String)
    (tok : String)
    (hpre : ∀ x ∈ pre, ActionResolves users hU x)
    (hs : a.getOpt hU = some (Value.str s))
    (hsplit : pySplit s '/' = tks1 ++ tok :: tks2)
    (h1 : ∀ x ∈ tks1, ∃ u, find_user users x = Except.ok (some u))
    (hmiss : find_user users tok = Except.ok Option.none) :
    (∀ post, correlate users hU hI (pre ++ a :: post) =
      Except.error (Err.missingUser tok (a.getOpt hI) (a.get ROW_HEADER))) ∧
    (∀ post g, ¬correlate users hU hI (pre ++ a :: post) = Except.ok g) := by
  have hmain : ∀ post, correlate users hU hI (pre ++ a :: post) =
      Except.error (Err.missingUser tok (a.getOpt hI) (a.get ROW_HEADER)) := by
    intro post
    have hto : tokensOf hU a = Except.ok (tks1 ++ tok :: tks2) := by
      unfold tokensOf
      rw [hs]
      show Except.ok (pySplit s '/') = _
      rw [hsplit]
    have hstep : ∀ m, corrStep users hU hI m a =
        Except.error (Err.missingUser tok (a.getOpt hI) (a.get ROW_HEADER)) := by
      intro m
      unfold corrStep
      rw [hto, bindE_ok, foldE_append, foldE_tokens_ok h1 m, bindE_ok, foldE_cons,
        procToken_missing hmiss, bindE_err]
    have hcm : correlateMap users hU hI (pre ++ a :: post) =
        Except.error (Err.missingUser tok (a.getOpt hI) (a.get ROW_HEADER)) := by
      unfold correlateMap
      rw [foldE_append, foldE_corrStep_ok hpre [], bindE_ok, foldE_cons, hstep, bindE_err]
    unfold correlate
    rw [hcm]
    rfl
  refine ⟨hmain, ?_⟩
  intro post g hg
  rw [hmain post] at hg
  cases hg

/-- Witness for C2 at a concrete input: in `[Fred, Wilma, Barney]`, the
action assigned to `"Fred/Bam Bam"` fails on the token `"Bam Bam"` with the
action's id `FS1` and provenance `Actions:3`, whatever actions follow. -/
theorem C2_correlate_missing_user_fail_fast_witness :
    correlate [fredR, wilmaR, barneyR] (some "User") (some "ID") [actBam] =
      Except.error (Err.missingUser "Bam Bam" (some (Value.str "FS1"))
        (some (Value.str "Actions:3"))) := by
  have h := (C2_correlate_missing_user_fail_fast [fredR, wilmaR, barneyR] []
    (some "User") (some "ID") actBam "Bam Bam" [] [] "Bam Bam"
    (by intro x hx; cases hx) rfl rfl (by intro x hx; cases hx) rfl).1 []
  simpa using h

/-! ### The table-renderer claim (C5) -/

/-- Claim C5 counterexample: a field missing from an action record renders
as the string `None` (Python `str(None)` of the `dict.get` default), not as
the empty string. -/
theorem C5_counterexample :
    createTableData ["ID", "Notes"] [[("ID", Value.str "SG1")]] =
      (["ID", "Notes"], [["SG1", "None"]]) ∧
    ¬("None" : String) = "" := by
  exact ⟨rfl, by decide⟩

/-- Claim C5 as amended: the table data handed to the renderer has column
order exactly the caller-supplied column sequence, one row per action with
cells in that column order, date-typed values rendered as their calendar
date only, strings by themselves, present `None` cells and missing fields
both as the string `None`. -/
theorem C5_table_data (headers : List String) (actions : List Record) :
    (createTableData headers actions).1 = headers ∧
    (createTableData headers actions).2.length = actions.length ∧
    (createTableData headers actions).2 =
      actions.map (fun item => headers.map (fun h => fmtCell (item.get h))) ∧
    (∀ y mo d hh mi ss, fmtCell (some (Value.dt y mo d hh mi ss)) = dateStr y mo d) ∧
    (∀ s, fmtCell (some (Value.str s)) = s) ∧
    fmtCell (some Value.none) = "None" ∧
    fmtCell Option.none = "None" := by
  refine ⟨rfl, ?_, rfl, fun _ _ _ _ _ _ => rfl, fun _ => rfl, rfl, rfl⟩
  unfold createTableData
  rw [List.length_map]

/-! ### Grouping-accumulator lemmas (towards C7) -/

/-- Key presence as the `any` test of `groupAdd`. -/
lemma any_key_iff (m : Grouping) (k : Option Value) :
    m.any (fun p => p.1 = k) = (m.map Prod.fst).any (fun z => z = k) := by
  induction m with
  | nil => rfl
  | cons p t ih => simp [List.any_cons, ih]

/-- `groupAdd` keeps the key order, appending a brand-new key at the end. -/
lemma groupAdd_keys (m : Grouping) (k : Option Value) (a : Record) :
    (groupAdd m k a).map Prod.fst =
      if (m.map Prod.fst).any (fun z => z = k) then m.map Prod.fst
      else m.map Prod.fst ++ [k] := by
  unfold groupAdd
  rw [any_key_iff]
  by_cases h : (m.map Prod.fst).any (fun z => z = k)
  · rw [if_pos h, if_pos h, List.map_map]
    apply List.map_congr_left
    intro p _
    by_cases hp : p.1 = k <;> simp [hp]
  · rw [if_neg h, if_neg h, List.map_append]
    rfl

/-- Looking up the key just extended: its list grew by the action. -/
lemma groupGet_groupAdd_same (m : Grouping) (k : Option Value) (a : Record) :
    groupGet (groupAdd m k a) k = groupGet m k ++ [a] := by
  unfold groupAdd
  by_cases h : m.any (fun p => p.1 = k)
  · rw [if_pos h]
    unfold groupGet
    rw [List.find?_map]
    have hpe : ((fun (p : Option Value × List Record) => decide (p.1 = k)) ∘
        (fun p => if p.1 = k then (p.1, p.2 ++ [a]) else p)) =
        (fun (p : Option Value × List Record) => decide (p.1 = k)) := by
      funext p
      by_cases hp : p.1 = k <;> simp [hp]
    rw [hpe]
    have hsome : ∃ p ∈ m, (fun (q : Option Value × List Record) => decide (q.1 = k)) p = true := by
      simpa using (List.any_eq_true.mp h)
    cases hf : m.find? (fun p => decide (p.1 = k)) with
    | none =>
        rw [List.find?_eq_none] at hf
        obtain ⟨p, hp, hpk⟩ := hsome
        exact absurd hpk (hf p hp)
    | some p =>
        have hpk : p.1 = k := by simpa using List.find?_some hf
        simp [groupGet, hf, hpk]
  · rw [if_neg h]
    unfold groupGet
    have hnone : m.find? (fun p => decide (p.1 = k)) = none := by
      rw [List.find?_eq_none]
      intro p hp hpk
      exact h (List.any_eq_true.mpr ⟨p, hp, hpk⟩)
    rw [List.find?_append, hnone]
    simp

/-- Looking up a different key: unchanged. -/
lemma groupGet_groupAdd_ne (m : Grouping) (k k' : Option Value) (a : Record)
    (h : ¬k' = k) : groupGet (groupAdd m k a) k' = groupGet m k' := by
  unfold groupAdd
  by_cases hm : m.any (fun p => p.1 = k)
  · rw [if_pos hm]
    unfold groupGet
    rw [List.find?_map]
    have hpe : ((fun (p : Option Value × List Record) => decide (p.1 = k')) ∘
        (fun p => if p.1 = k then (p.1, p.2 ++ [a]) else p)) =
        (fun (p : Option Value × List Record) => decide (p.1 = k')) := by
      funext p
      by_cases hp : p.1 = k <;> simp [hp]
    rw [hpe]
    cases hf : m.find? (fun p => decide (p.1 = k')) with
    | none => rfl
    | some p =>
        have hpk : p.1 = k' := by simpa using List.find?_some hf
        have hpk2 : ¬p.1 = k := by rw [hpk]; exact h
        simp [hf, hpk2]
  · rw [if_neg hm]
    unfold groupGet
    rw [List.find?_append]
    have hlast : List.find? (fun p => decide (p.1 = k')) [(k, [a])] = Option.none := by
      have hkk : decide (k = k') = false := decide_eq_false (fun he => h he.symm)
      simp [List.find?, hkk]
    rw [hlast]
    cases m.find? (fun p => decide (p.1 = k')) <;> rfl

/-- The accumulated list of a key after replaying a flat sequence. -/
lemma foldl_groupAdd_get (seq : List (Option Value × Record)) (m0 : Grouping)
    (k : Option Value) :
    groupGet (seq.foldl (fun m p => groupAdd m p.1 p.2) m0) k =
      groupGet m0 k ++ (seq.filter (fun p => p.1 = k)).map Prod.snd := by
  induction seq generalizing m0 with
  | nil => simp
  | cons p t ih =>
      rw [List.foldl_cons, ih]
      by_cases hp : p.1 = k
      · rw [hp, groupGet_groupAdd_same]
        have : (p :: t).filter (fun q => decide (q.1 = k)) =
            p :: t.filter (fun q => decide (q.1 = k)) :=
          List.filter_cons_of_pos (by simpa using hp)
        rw [this, List.map_cons, List.append_assoc]
        rfl
      · rw [groupGet_groupAdd_ne _ _ _ _ (fun he => hp he.symm)]
        have : (p :: t).filter (fun q => decide (q.1 = k)) =
            t.filter (fun q => decide (q.1 = k)) :=
          List.filter_cons_of_neg (by simpa using hp)
        rw [this]

/-- The key order after replaying a flat sequence: first-appearance order. -/
lemma foldl_groupAdd_keys (seq : List (Option Value × Record)) (m0 : Grouping) :
    (seq.foldl (fun m p => groupAdd m p.1 p.2) m0).map Prod.fst =
      (seq.map Prod.fst).foldl
        (fun ks k => if ks.any (fun z => z = k) then ks else ks ++ [k])
        (m0.map Prod.fst) := by
  induction seq generalizing m0 with
  | nil => rfl
  | cons p t ih =>
      rw [List.foldl_cons, ih, List.map_cons, List.foldl_cons, groupAdd_keys]

/-- The keys of the replayed grouping are the first appearances of the flat
key sequence. -/
lemma groupOf_keys (seq : List (Option Value × Record)) :
    (groupOf seq).map Prod.fst = firstAppearance (seq.map Prod.fst) := by
  unfold groupOf firstAppearance
  exact foldl_groupAdd_keys seq []

/-- Membership in a first-appearance fold. -/
lemma mem_firstAppearance_aux {α : Type} [DecidableEq α] (l : List α) (acc : List α)
    (x : α) :
    x ∈ l.foldl (fun ks k => if ks.any (fun z => z = k) then ks else ks ++ [k]) acc ↔
      x ∈ acc ∨ x ∈ l := by
  induction l generalizing acc with
  | nil => simp
  | cons y t ih =>
      rw [List.foldl_cons]
      by_cases hy : acc.any (fun z => z = y)
      · have hy' : y ∈ acc := by
          obtain ⟨z, hz, hzy⟩ := List.any_eq_true.mp hy
          have : z = y := by simpa using hzy
          exact this ▸ hz
        rw [if_pos hy, ih]
        simp only [List.mem_cons]
        constructor
        · rintro (h | h)
          · exact Or.inl h
          · exact Or.inr (Or.inr h)
        · rintro (h | h | h)
          · exact Or.inl h
          · exact Or.inl (h ▸ hy')
          · exact Or.inr h
      · rw [if_neg hy, ih]
        simp only [List.mem_append, List.mem_singleton, List.mem_cons,
          List.not_mem_nil, or_false]
        tauto

/-- `firstAppearance` keeps exactly the members. -/
lemma mem_firstAppearance {α : Type} [DecidableEq α] {l : List α} {x : α} :
    x ∈ firstAppearance l ↔ x ∈ l := by
  unfold firstAppearance
  rw [mem_firstAppearance_aux]
  simp

/-- A first-appearance fold preserves duplicate-freeness. -/
lemma nodup_firstAppearance_aux {α : Type} [DecidableEq α] (l : List α)
    (acc : List α) (h : acc.Nodup) :
    (l.foldl (fun ks k => if ks.any (fun z => z = k) then ks else ks ++ [k]) acc).Nodup := by
  induction l generalizing acc with
  | nil => exact h
  | cons y t ih =>
      rw [List.foldl_cons]
      by_cases hy : acc.any (fun z => z = y)
      · rw [if_pos hy]
        exact ih acc h
      · have hy' : y ∉ acc := by
          intro hc
          exact (by simpa using hy : ¬∃ z ∈ acc, z = y) ⟨y, hc, rfl⟩
        rw [if_neg hy]
        refine ih _ ?_
        rw [List.nodup_append]
        exact ⟨h, List.nodup_singleton y, by simpa using fun hc => hy' hc⟩

/-- `firstAppearance` is duplicate-free. -/
lemma nodup_firstAppearance {α : Type} [DecidableEq α] (l : List α) :
    (firstAppearance l).Nodup :=
  nodup_firstAppearance_aux l [] List.nodup_nil

/-- Lookup at the head key. -/
lemma groupGet_cons_self (k : Option Value) (v : List Record) (rest : Grouping) :
    groupGet ((k, v) :: rest) k = v := by
  unfold groupGet
  rw [List.find?_cons_of_pos _ (by simp)]
  rfl

/-- Lookup skips a different head key. -/
lemma groupGet_cons_ne (k0 : Option Value) (v : List Record) (rest : Grouping)
    (k : Option Value) (h : ¬k0 = k) :
    groupGet ((k0, v) :: rest) k = groupGet rest k := by
  unfold groupGet
  rw [List.find?_cons_of_neg _ (by simpa using h)]

/-- An association list with duplicate-free keys is its key order paired
with its lookups. -/
lemma assoc_eq_keys_map {m : Grouping} (h : (m.map Prod.fst).Nodup) :
    m = (m.map Prod.fst).map (fun k => (k, groupGet m k)) := by
  induction m with
  | nil => rfl
  | cons p rest ih =>
      obtain ⟨k0, v0⟩ := p
      rw [List.map_cons] at h
      have hnd := List.nodup_cons.mp h
      rw [List.map_cons, List.map_cons, groupGet_cons_self]
      have hcong : (rest.map Prod.fst).map (fun k => (k, groupGet ((k0, v0) :: rest) k)) =
          (rest.map Prod.fst).map (fun k => (k, groupGet rest k)) := by
        apply List.map_congr_left
        intro k hk
        have hne : ¬k0 = k := fun he => hnd.1 (he ▸ hk)
        rw [groupGet_cons_ne _ _ _ _ hne]
      rw [hcong, ← ih hnd.2]

/-- Two groupings with duplicate-free keys, permuted key lists and equal
lookups are permutations of each other. -/
lemma assoc_perm_of_eq {m m' : Grouping}
    (hn : (m.map Prod.fst).Nodup) (hn' : (m'.map Prod.fst).Nodup)
    (hkeys : (m.map Prod.fst).Perm (m'.map Prod.fst))
    (hget : ∀ k, groupGet m k = groupGet m' k) :
    m.Perm m' := by
  have h1 := assoc_eq_keys_map hn
  have h2 := assoc_eq_keys_map hn'
  have hF : (fun k => (k, groupGet m k)) = (fun k => (k, groupGet m' k)) :=
    funext fun k => by rw [hget k]
  have hstep := hkeys.map (fun k => (k, groupGet m' k))
  have e1 : (m.map Prod.fst).map (fun k => (k, groupGet m' k)) = m := by
    rw [← hF]
    exact h1.symm
  have e2 : (m'.map Prod.fst).map (fun k => (k, groupGet m' k)) = m' := h2.symm
  rw [e1, e2] at hstep
  exact hstep

/-- The value a successful `mapE` produced for each element is unique. -/
lemma mapE_ok_eq_map {α β : Type} {f : α → Except Err β} {g : α → β} {l : List α}
    {r : List β} (hr : mapE f l = Except.ok r)
    (h : ∀ a ∈ l, ∀ b, f a = Except.ok b → b = g a) :
    r = l.map g := by
  induction l generalizing r with
  | nil =>
      unfold mapE at hr
      cases hr
      rfl
  | cons a t ih =>
      unfold mapE at hr
      cases hf : f a with
      | error e => rw [hf, bindE_err] at hr; cases hr
      | ok b =>
          rw [hf, bindE_ok] at hr
          cases hm : mapE f t with
          | error e => rw [hm, bindE_err] at hr; cases hr
          | ok bs =>
              rw [hm, bindE_ok] at hr
              cases hr
              rw [List.map_cons, h a (List.mem_cons_self a t) b hf,
                ih hm (fun x hx => h x (List.mem_cons_of_mem _ hx))]

/-- `flatPairs` distributes over append. -/
lemma flatPairs_append (users : List Record) (hU : Option String)
    (l1 l2 : List Record) :
    flatPairs users hU (l1 ++ l2) = flatPairs users hU l1 ++ flatPairs users hU l2 := by
  unfold flatPairs
  rw [List.flatMap_append]

/-- `flatPairs` on a cons. -/
lemma flatPairs_cons (users : List Record) (hU : Option String) (a : Record)
    (l : List Record) :
    flatPairs users hU (a :: l) =
      (tokensD hU a).map (fun tok => (keyOfTok users hU tok, a)) ++
        flatPairs users hU l := by
  unfold flatPairs
  rw [List.flatMap_cons]

/-- Every pair of the flat sequence carries one of the scanned actions. -/
lemma snd_mem_flatPairs {users : List Record} {hU : Option String}
    {actions : List Record} {p : Option Value × Record}
    (hp : p ∈ flatPairs users hU actions) : p.2 ∈ actions := by
  unfold flatPairs at hp
  rw [List.mem_flatMap] at hp
  obtain ⟨a, ha, hpa⟩ := hp
  rw [List.mem_map] at hpa
  obtain ⟨tok, _, rfl⟩ := hpa
  exact ha

/-- Filtering one action's token block for a key yields that action
repeated once per token resolving to the key. -/
lemma block_filter_map (users : List Record) (hU : Option String)
    (toks : List String) (a : Record) (k : Option Value) :
    ((toks.map (fun tok => (keyOfTok users hU tok, a))).filter
        (fun p => p.1 = k)).map Prod.snd =
      List.replicate (toks.countP (fun tok => keyOfTok users hU tok = k)) a := by
  induction toks with
  | nil => rfl
  | cons tok t ih =>
      rw [List.map_cons, List.countP_cons]
      by_cases hk : keyOfTok users hU tok = k
      · rw [List.filter_cons_of_pos (by simpa using hk), List.map_cons, ih]
        have : (t.countP fun tok => decide (keyOfTok users hU tok = k)) +
            (if decide (keyOfTok users hU tok = k) = true then 1 else 0) =
            (t.countP fun tok => decide (keyOfTok users hU tok = k)) + 1 := by
          simp [hk]
        rw [this, List.replicate_succ]
      · rw [List.filter_cons_of_neg (by simpa using hk), ih]
        have : (t.countP fun tok => decide (keyOfTok users hU tok = k)) +
            (if decide (keyOfTok users hU tok = k) = true then 1 else 0) =
            t.countP fun tok => decide (keyOfTok users hU tok = k) := by
          simp [hk]
        rw [this]

/-- Lookup in the empty grouping. -/
lemma groupGet_nil (k : Option Value) : groupGet [] k = [] := rfl

/-- Replaying a flat sequence accumulates, per key, exactly the actions of
the pairs carrying that key, in order. -/
lemma groupOf_get (seq : List (Option Value × Record)) (k : Option Value) :
    groupGet (groupOf seq) k = (seq.filter (fun p => p.1 = k)).map Prod.snd := by
  unfold groupOf
  rw [foldl_groupAdd_get, groupGet_nil]
  rfl

/-- Mapping values of an association list maps its lookups. -/
lemma groupGet_map_vals (m : Grouping) (f : List Record → List Record)
    (hf : f [] = []) (k : Option Value) :
    groupGet (m.map (fun p => (p.1, f p.2))) k = f (groupGet m k) := by
  unfold groupGet
  rw [List.find?_map]
  have hpe : ((fun (q : Option Value × List Record) => decide (q.1 = k)) ∘
      (fun p => (p.1, f p.2))) = (fun (p : Option Value × List Record) => decide (p.1 = k)) := by
    funext p
    rfl
  rw [hpe]
  cases m.find? (fun p => decide (p.1 = k)) with
  | none => simpa using hf.symm
  | some p => rfl

/-- Materialisation of a pair when the key resolves. -/
lemma matPair_ok {users : List Record} {p : Option Value × List Record}
    {u : Option Record} (h : materializeKey users p.1 = Except.ok u) :
    matPair users p = Except.ok (u, p.2) := by
  unfold matPair
  rw [h]
  rfl

/-- An achieved materialisation determines its value. -/
lemma matPair_ok_inv {users : List Record} {p : Option Value × List Record}
    {b : Option Record × List Record} (h : matPair users p = Except.ok b) :
    materializeKey users p.1 = Except.ok b.1 ∧ b = (b.1, p.2) := by
  unfold matPair at h
  cases hm : materializeKey users p.1 with
  | error e => rw [hm, bindE_err] at h; cases h
  | ok u =>
      rw [hm, bindE_ok] at h
      cases h
      refine ⟨?_, rfl⟩
      set_option linter.unnecessarySimpa false in
      simpa using hm

/-- Replacement is the identity away from the replaced record. -/
lemma map_replaceBy_eq_self {a a' : Record} {l : List Record}
    (h : ∀ x ∈ l, ¬x = a) : l.map (replaceBy a a') = l := by
  induction l with
  | nil => rfl
  | cons x t ih =>
      rw [List.map_cons, ih (fun y hy => h y (List.mem_cons_of_mem _ hy))]
      unfold replaceBy
      rw [if_neg (h x (List.mem_cons_self x t))]

/-- The record of every filtered flat pair is a scanned action. -/
lemma mem_filtered_snd {users : List Record} {hU : Option String}
    {actions : List Record} {pred : Option Value × Record → Bool} {x : Record}
    (hx : x ∈ ((flatPairs users hU actions).filter pred).map Prod.snd) :
    x ∈ actions := by
  rw [List.mem_map] at hx
  obtain ⟨p, hp, rfl⟩ := hx
  exact snd_mem_flatPairs (List.mem_of_mem_filter hp)

/-- Permuting one action's tokens leaves every key's accumulated list
intact, up to carrying the re-assigned record. -/
lemma groupGet_token_perm (users : List Record) (hU : Option String)
    (pre post : List Record) (a a' : Record)
    (htoks : (tokensD hU a).Perm (tokensD hU a'))
    (hpre : a ∉ pre) (hpost : a ∉ post) (k : Option Value) :
    groupGet (groupOf (flatPairs users hU (pre ++ a' :: post))) k =
      (groupGet (groupOf (flatPairs users hU (pre ++ a :: post))) k).map
        (replaceBy a a') := by
  simp only [groupOf_get, flatPairs_append, flatPairs_cons, List.filter_append,
    List.map_append, block_filter_map]
  have hcount : (tokensD hU a').countP (fun tok => keyOfTok users hU tok = k) =
      (tokensD hU a).countP (fun tok => keyOfTok users hU tok = k) :=
    (htoks.countP_eq _).symm
  have hfpre : (((flatPairs users hU pre).filter (fun p => p.1 = k)).map
      Prod.snd).map (replaceBy a a') =
      ((flatPairs users hU pre).filter (fun p => p.1 = k)).map Prod.snd :=
    map_replaceBy_eq_self (fun x hx he => hpre (he ▸ mem_filtered_snd hx))
  have hfpost : (((flatPairs users hU post).filter (fun p => p.1 = k)).map
      Prod.snd).map (replaceBy a a') =
      ((flatPairs users hU post).filter (fun p => p.1 = k)).map Prod.snd :=
    map_replaceBy_eq_self (fun x hx he => hpost (he ▸ mem_filtered_snd hx))
  have hrep : (List.replicate ((tokensD hU a).countP
      (fun tok => keyOfTok users hU tok = k)) a).map (replaceBy a a') =
      List.replicate ((tokensD hU a).countP
        (fun tok => keyOfTok users hU tok = k)) a' := by
    rw [List.map_replicate]
    unfold replaceBy
    rw [if_pos rfl]
  rw [hfpre, hfpost, hrep, hcount]

/-- Permuting one action's tokens permutes the flat key sequence. -/
lemma keys_token_perm (users : List Record) (hU : Option String)
    (pre post : List Record) (a a' : Record)
    (htoks : (tokensD hU a).Perm (tokensD hU a')) :
    ((flatPairs users hU (pre ++ a' :: post)).map Prod.fst).Perm
      ((flatPairs users hU (pre ++ a :: post)).map Prod.fst) := by
  simp only [flatPairs_append, flatPairs_cons, List.map_append, List.map_map]
  refine (List.Perm.refl _).append (List.Perm.append ?_ (List.Perm.refl _))
  have h1 : (Prod.fst ∘ fun tok => (keyOfTok users hU tok, a')) =
      fun tok => keyOfTok users hU tok := rfl
  have h2 : (Prod.fst ∘ fun tok => (keyOfTok users hU tok, a)) =
      fun tok => keyOfTok users hU tok := rfl
  rw [h1, h2]
  exact htoks.symm.map _

/-- `firstAppearance` respects permutation. -/
lemma firstAppearance_perm {α : Type} [DecidableEq α] {l l' : List α}
    (h : l.Perm l') : (firstAppearance l).Perm (firstAppearance l') := by
  rw [List.perm_ext_iff_of_nodup (nodup_firstAppearance l) (nodup_firstAppearance l')]
  intro x
  rw [mem_firstAppearance, mem_firstAppearance]
  exact h.mem_iff

/-- Claim C7: when `correlate` succeeds, permuting the `/`-separated tokens
within one action's assignee field yields the same grouping results — the
returned pairs are a permutation with identical per-person action lists (the
re-assigned action record itself carrying the permuted field) — while the
order of pairs is the first-appearance order of each distinct person key
when scanning the action sequence top-to-bottom. -/
theorem C7_correlate_token_permutation (users pre post : List Record)
    (hU hI : Option String) (a a' : Record)
    (g : List (Option Record × List Record))
    (hres : ∀ x ∈ pre ++ a :: post, ActionResolves users hU x)
    (hres' : ActionResolves users hU a')
    (htoks : (tokensD hU a).Perm (tokensD hU a'))
    (hpre : a ∉ pre) (hpost : a ∉ post)
    (hg : correlate users hU hI (pre ++ a :: post) = Except.ok g) :
    ((groupOf (flatPairs users hU (pre ++ a :: post))).map Prod.fst =
      firstAppearance ((flatPairs users hU (pre ++ a :: post)).map Prod.fst)) ∧
    (∀ k, groupGet (groupOf (flatPairs users hU (pre ++ a' :: post))) k =
      (groupGet (groupOf (flatPairs users hU (pre ++ a :: post))) k).map
        (replaceBy a a')) ∧
    (∃ g', correlate users hU hI (pre ++ a' :: post) = Except.ok g' ∧
      g'.Perm (g.map (fun q => (q.1, q.2.map (replaceBy a a'))))) := by
  have hresAll' : ∀ x ∈ pre ++ a' :: post, ActionResolves users hU x := by
    intro x hx
    rcases List.mem_append.mp hx with h | h
    · exact hres x (List.mem_append.mpr (Or.inl h))
    · rcases List.mem_cons.mp h with rfl | h2
      · exact hres'
      · exact hres x (List.mem_append.mpr (Or.inr (List.mem_cons_of_mem _ h2)))
  have hm := @correlateMap_ok users hU hI (pre ++ a :: post) hres
  have hm' := @correlateMap_ok users hU hI (pre ++ a' :: post) hresAll'
  unfold correlate at hg
  rw [hm, bindE_ok] at hg
  have hGF : ∀ p ∈ groupOf (flatPairs users hU (pre ++ a :: post)), ∀ b,
      matPair users p = Except.ok b → b = (matD users p.1, p.2) := by
    intro p _ b hb
    obtain ⟨h1, h2⟩ := matPair_ok_inv hb
    rw [h2]
    unfold matD
    rw [h1]
  have hgeq : g = (groupOf (flatPairs users hU (pre ++ a :: post))).map
      (fun p => (matD users p.1, p.2)) := mapE_ok_eq_map hg hGF
  have hmatall : ∀ k ∈ (groupOf (flatPairs users hU (pre ++ a :: post))).map Prod.fst,
      ∃ u, materializeKey users k = Except.ok u := by
    intro k hk
    rw [List.mem_map] at hk
    obtain ⟨p, hp, rfl⟩ := hk
    obtain ⟨b, hb⟩ := mapE_ok_mem hg p hp
    exact ⟨b.1, (matPair_ok_inv hb).1⟩
  have hkeysperm : ((groupOf (flatPairs users hU (pre ++ a' :: post))).map Prod.fst).Perm
      ((groupOf (flatPairs users hU (pre ++ a :: post))).map Prod.fst) := by
    rw [groupOf_keys, groupOf_keys]
    exact firstAppearance_perm (keys_token_perm users hU pre post a a' htoks)
  have hget := groupGet_token_perm users hU pre post a a' htoks hpre hpost
  have hok' : ∀ p ∈ groupOf (flatPairs users hU (pre ++ a' :: post)),
      matPair users p = Except.ok (matD users p.1, p.2) := by
    intro p hp
    have hk : p.1 ∈ (groupOf (flatPairs users hU (pre ++ a' :: post))).map Prod.fst :=
      List.mem_map_of_mem _ hp
    obtain ⟨u, hu⟩ := hmatall p.1 (hkeysperm.mem_iff.mp hk)
    have hd : matD users p.1 = u := by
      unfold matD
      rw [hu]
    rw [hd]
    exact matPair_ok hu
  have hcor' : correlate users hU hI (pre ++ a' :: post) = Except.ok
      ((groupOf (flatPairs users hU (pre ++ a' :: post))).map
        (fun p => (matD users p.1, p.2))) := by
    unfold correlate
    rw [hm', bindE_ok]
    exact mapE_ok_of_forall hok'
  have hn : ((groupOf (flatPairs users hU (pre ++ a :: post))).map Prod.fst).Nodup := by
    rw [groupOf_keys]
    exact nodup_firstAppearance _
  have hn' : ((groupOf (flatPairs users hU (pre ++ a' :: post))).map Prod.fst).Nodup := by
    rw [groupOf_keys]
    exact nodup_firstAppearance _
  have hM2keys : (((groupOf (flatPairs users hU (pre ++ a :: post))).map
      (fun p => (p.1, p.2.map (replaceBy a a')))).map Prod.fst) =
      (groupOf (flatPairs users hU (pre ++ a :: post))).map Prod.fst := by
    rw [List.map_map]
    rfl
  have hpermM : (groupOf (flatPairs users hU (pre ++ a' :: post))).Perm
      ((groupOf (flatPairs users hU (pre ++ a :: post))).map
        (fun p => (p.1, p.2.map (replaceBy a a')))) := by
    refine assoc_perm_of_eq hn' ?_ ?_ ?_
    · rw [hM2keys]
      exact hn
    · rw [hM2keys]
      exact hkeysperm
    · intro k
      rw [hget k, groupGet_map_vals _ _ rfl k]
  refine ⟨groupOf_keys _, hget, ?_⟩
  refine ⟨(groupOf (flatPairs users hU (pre ++ a' :: post))).map
    (fun p => (matD users p.1, p.2)), hcor', ?_⟩
  rw [hgeq, List.map_map]
  have hcomp : ((fun q : Option Record × List Record =>
      (q.1, q.2.map (replaceBy a a'))) ∘
      (fun p : Option Value × List Record => (matD users p.1, p.2))) =
      ((fun p : Option Value × List Record => (matD users p.1, p.2)) ∘
      (fun p : Option Value × List Record => (p.1, p.2.map (replaceBy a a')))) := by
    funext p
    rfl
  rw [hcomp, ← List.map_map]
  exact hpermM.map _

/-- Witness for C7 at a concrete input: swapping `"Fred/Barney"` into
`"Barney/Fred"` still correlates, producing a permutation of the original
grouping with the re-assigned record substituted. -/
theorem C7_correlate_token_permutation_witness :
    ∃ g', correlate [fredR, wilmaR, barneyR] (some "User") (some "ID") ([] ++ actBF :: []) =
        Except.ok g' ∧
      g'.Perm ([(some fredR, [actFB]), (some barneyR, [actFB])].map
        (fun q => (q.1, q.2.map (replaceBy actFB actBF)))) := by
  refine (C7_correlate_token_permutation [fredR, wilmaR, barneyR] [] []
    (some "User") (some "ID") actFB actBF
    [(some fredR, [actFB]), (some barneyR, [actFB])] ?_ ?_ ?_ ?_ ?_ ?_).2.2
  · intro x hx
    have hx2 : x = actFB := by simpa using hx
    subst hx2
    refine ⟨"Fred/Barney", rfl, ?_⟩
    intro tok htok
    have hsp : pySplit "Fred/Barney" '/' = ["Fred", "Barney"] := rfl
    rw [hsp] at htok
    have htok2 : tok = "Fred" ∨ tok = "Barney" := by simpa using htok
    rcases htok2 with rfl | rfl
    · exact ⟨fredR, rfl⟩
    · exact ⟨barneyR, rfl⟩
  · refine ⟨"Barney/Fred", rfl, ?_⟩
    intro tok htok
    have hsp : pySplit "Barney/Fred" '/' = ["Barney", "Fred"] := rfl
    rw [hsp] at htok
    have htok2 : tok = "Barney" ∨ tok = "Fred" := by simpa using htok
    rcases htok2 with rfl | rfl
    · exact ⟨barneyR, rfl⟩
    · exact ⟨fredR, rfl⟩
  · decide
  · simp
  · simp
  · rfl

/-! ### The session-lifecycle claim (C8) -/

/-- Claim C8 counterexample: in bulk mode, a transport failure on the very
first send propagates with the session opened and never closed — the loop
has no `try`/`finally` around `server.quit()`. -/
theorem C8_counterexample :
    MailEv.opened ∈ (send_all_emails ⟨some "Hello", some "Bye", some "Email", some "User"⟩
      [(some fredR, [actFB])] 14 (fun _ => false)).1 ∧
    MailEv.closed ∉ (send_all_emails ⟨some "Hello", some "Bye", some "Email", some "User"⟩
      [(some fredR, [actFB])] 14 (fun _ => false)).1 ∧
    (send_all_emails ⟨some "Hello", some "Bye", some "Email", some "User"⟩
      [(some fredR, [actFB])] 14 (fun _ => false)).2 = Except.error smtpFailure := by
  refine ⟨by decide, by decide, rfl⟩

/-- The bulk send loop emits no close event itself. -/
lemma bulkLoop_no_close (cfg : MCfg) (days : Int) (sendOk : Nat → Bool)
    (i : Nat) (ua : List (Option Record × List Record)) :
    MailEv.closed ∉ (bulkLoop cfg days sendOk i ua).1 := by
  induction ua generalizing i with
  | nil => simp [bulkLoop]
  | cons p rest ih =>
      obtain ⟨user, acts⟩ := p
      unfold bulkLoop
      cases send_email_via_server cfg (sendOk i) user days with
      | error e => simp
      | ok u =>
          simp only []
          intro hc
          rcases List.mem_cons.mp hc with h | h
          · cases h
          · exact ih (i + 1) (by
              have : (bulkLoop cfg days sendOk (i + 1) rest).1 =
                  (bulkLoop cfg days sendOk (i + 1) rest).1 := rfl
              exact h)

/-- The interactive loop emits a close event never, an open event exactly
when it turned a closed session into an open one, and only ever opens. -/
lemma iLoop_spec (cfg : MCfg) (days : Int) (sendOk : Nat → Bool)
    (ua : List (Option Record × List Record)) (inputs : List String) (i : Nat)
    (srv : Bool) :
    ∀ t r srv', iLoop cfg days sendOk ua inputs i srv = (t, r, srv') →
      MailEv.closed ∉ t ∧ (srv = true → srv' = true) ∧
        (MailEv.opened ∈ t ↔ (srv = false ∧ srv' = true)) := by
  induction ua generalizing inputs i srv with
  | nil =>
      intro t r srv' h
      unfold iLoop at h
      cases h
      simp
  | cons p rest ih =>
      intro t r srv' h
      obtain ⟨user, acts⟩ := p
      unfold iLoop at h
      cases user with
      | none =>
          cases h
          simp
      | some urec =>
          cases hpr : prompt_for_what inputs with
          | error e =>
              rw [hpr] at h
              cases h
              simp
          | ok wi =>
              obtain ⟨w, inputs'⟩ := wi
              rw [hpr] at h
              dsimp only at h
              by_cases hw : w = "exit"
              · rw [if_pos hw] at h
                cases h
                simp
              · rw [if_neg hw] at h
                by_cases he : w = "email"
                · rw [if_pos he] at h
                  cases hsend : send_email_via_server cfg (sendOk i) (some urec) days with
                  | error e =>
                      rw [hsend] at h
                      cases h
                      cases srv <;> simp
                  | ok u =>
                      rw [hsend] at h
                      cases hloop : iLoop cfg days sendOk rest inputs' (i + 1) true with
                      | mk t2 rs =>
                          obtain ⟨r2, srv2⟩ := rs
                          rw [hloop] at h
                          cases h
                          obtain ⟨hc2, hs2, ho2⟩ := ih inputs' (i + 1) true t2 r2 srv2 hloop
                          have hsrv2 : srv2 = true := hs2 rfl
                          subst hsrv2
                          constructor
                          · intro hc
                            rcases List.mem_append.mp hc with hcl | hcr
                            · cases srv <;> simp_all
                            · rcases List.mem_cons.mp hcr with hx | hx
                              · cases hx
                              · exact hc2 hx
                          · constructor
                            · intro _
                              rfl
                            · cases srv <;> simp_all
                · rw [if_neg he] at h
                  exact ih inputs' i srv t r srv' h

/-- Claim C8 as amended: the mail session is closed on normal completion of
bulk mode and on every non-exceptional interactive exit (an early operator
`exit` included, closing exactly when a session was opened), but an
exception while composing or sending — in either mode — propagates with the
opened session never closed. -/
theorem C8_session_close (cfg : MCfg) (ua : List (Option Record × List Record))
    (days : Int) (sendOk : Nat → Bool) (inputs : List String) :
    ((send_all_emails cfg ua days sendOk).2 = Except.ok () →
      MailEv.closed ∈ (send_all_emails cfg ua days sendOk).1) ∧
    (∀ e, (send_all_emails cfg ua days sendOk).2 = Except.error e →
      MailEv.closed ∉ (send_all_emails cfg ua days sendOk).1) ∧
    ((interactive_send_email cfg ua inputs days sendOk).2 = Except.ok () →
      (MailEv.closed ∈ (interactive_send_email cfg ua inputs days sendOk).1 ↔
        MailEv.opened ∈ (interactive_send_email cfg ua inputs days sendOk).1)) ∧
    (∀ e, (interactive_send_email cfg ua inputs days sendOk).2 = Except.error e →
      MailEv.closed ∉ (interactive_send_email cfg ua inputs days sendOk).1) := by
  have hbulk := bulkLoop_no_close cfg days sendOk 0 ua
  refine ⟨?_, ?_, ?_, ?_⟩
  · intro hok2
    unfold send_all_emails at hok2 ⊢
    by_cases hn : ua.any (fun p => p.1.isNone)
    · rw [if_pos hn] at hok2
      simp at hok2
    · rw [if_neg hn] at hok2 ⊢
      cases hbl : bulkLoop cfg days sendOk 0 ua with
      | mk t r =>
          cases r with
          | none => simp
          | some e =>
              rw [hbl] at hok2
              simp at hok2
  · intro e herr2
    unfold send_all_emails at herr2 ⊢
    by_cases hn : ua.any (fun p => p.1.isNone)
    · rw [if_pos hn]
      simp
    · rw [if_neg hn] at herr2 ⊢
      cases hbl : bulkLoop cfg days sendOk 0 ua with
      | mk t r =>
          cases r with
          | none =>
              rw [hbl] at herr2
              simp at herr2
          | some e2 =>
              rw [hbl] at hbulk
              intro hc
              rcases List.mem_cons.mp hc with hx | hx
              · cases hx
              · exact hbulk hx
  · intro hok2
    unfold interactive_send_email at hok2 ⊢
    cases hl : iLoop cfg days sendOk ua inputs 0 false with
    | mk t rs =>
        obtain ⟨r, srv⟩ := rs
        obtain ⟨hc, _, ho⟩ := iLoop_spec cfg days sendOk ua inputs 0 false t r srv hl
        cases r with
        | none => cases srv <;> simp_all
        | some e => simp_all
  · intro e herr2
    unfold interactive_send_email at herr2 ⊢
    cases hl : iLoop cfg days sendOk ua inputs 0 false with
    | mk t rs =>
        obtain ⟨r, srv⟩ := rs
        obtain ⟨hc, _, _⟩ := iLoop_spec cfg days sendOk ua inputs 0 false t r srv hl
        cases r with
        | none => cases srv <;> simp_all
        | some e2 => simpa using hc

/-- Witness for C8 at a concrete input: one user, a succeeding transport, a
`show` then `email` operator script — bulk and interactive both close the
session they opened. -/
theorem C8_session_close_witness :
    MailEv.closed ∈ (send_all_emails ⟨some "Hello", some "Bye", some "Email", some "User"⟩
      [(some fredR, [actFB])] 14 (fun _ => true)).1 ∧
    (MailEv.closed ∈ (interactive_send_email
        ⟨some "Hello", some "Bye", some "Email", some "User"⟩
        [(some fredR, [actFB])] ["show", "EMAIL"] 14 (fun _ => true)).1 ↔
      MailEv.opened ∈ (interactive_send_email
        ⟨some "Hello", some "Bye", some "Email", some "User"⟩
        [(some fredR, [actFB])] ["show", "EMAIL"] 14 (fun _ => true)).1) := by
  have h := C8_session_close ⟨some "Hello", some "Bye", some "Email", some "User"⟩
    [(some fredR, [actFB])] 14 (fun _ => true) ["show", "EMAIL"]
  exact ⟨h.1 rfl, h.2.2.1 rfl⟩

/-! ### The provenance-field claim (C10) -/

/-- `startsWithL` is prefix decomposition. -/
lemma startsWithL_iff (n h : List Char) :
    startsWithL n h = true ↔ ∃ t, h = n ++ t := by
  induction n generalizing h with
  | nil =>
      simp only [startsWithL, true_iff]
      exact ⟨h, rfl⟩
  | cons a as ih =>
      cases h with
      | nil => simp [startsWithL]
      | cons b hs =>
          simp only [startsWithL, Bool.and_eq_true, decide_eq_true_eq, ih,
            List.cons_append, List.cons.injEq]
          constructor
          · rintro ⟨rfl, t, rfl⟩
            exact ⟨t, rfl, rfl⟩
          · rintro ⟨t, rfl, rfl⟩
            exact ⟨rfl, t, rfl⟩

/-- `substrL` is infix decomposition. -/
lemma substrL_iff (n h : List Char) :
    substrL n h = true ↔ ∃ p t, h = p ++ n ++ t := by
  induction h with
  | nil =>
      simp only [substrL, List.isEmpty_iff]
      constructor
      · rintro rfl
        exact ⟨[], [], rfl⟩
      · rintro ⟨p, t, he⟩
        have hlen := congrArg List.length he
        simp only [List.length_append, List.length_nil] at hlen
        exact List.eq_nil_of_length_eq_zero (by omega)
  | cons c hs ih =>
      simp only [substrL, Bool.or_eq_true]
      constructor
      · rintro (hst | hsub)
        · obtain ⟨t, ht⟩ := (startsWithL_iff n (c :: hs)).mp hst
          exact ⟨[], t, by simpa using ht⟩
        · obtain ⟨p, t, he⟩ := ih.mp hsub
          exact ⟨c :: p, t, by rw [he]; rfl⟩
      · rintro ⟨p, t, he⟩
        cases p with
        | nil =>
            left
            exact (startsWithL_iff n (c :: hs)).mpr ⟨t, by simpa using he⟩
        | cons d ps =>
            right
            rw [List.cons_append, List.cons_append] at he
            injection he with h1 h2
            exact ih.mpr ⟨ps, t, h2⟩

/-- `stripL` is an inner segment of its input. -/
lemma strip_decomp (l : List Char) : ∃ p t, l = p ++ stripL l ++ t := by
  refine ⟨l.takeWhile isPySpace,
    ((l.dropWhile isPySpace).reverse.takeWhile isPySpace).reverse, ?_⟩
  have h1 : l = l.takeWhile isPySpace ++ l.dropWhile isPySpace :=
    (List.takeWhile_append_dropWhile _ _).symm
  have h2 : (l.dropWhile isPySpace).reverse =
      (l.dropWhile isPySpace).reverse.takeWhile isPySpace ++
        (l.dropWhile isPySpace).reverse.dropWhile isPySpace :=
    (List.takeWhile_append_dropWhile _ _).symm
  have h3 : l.dropWhile isPySpace =
      stripL l ++ ((l.dropWhile isPySpace).reverse.takeWhile isPySpace).reverse := by
    unfold stripL
    calc l.dropWhile isPySpace = (l.dropWhile isPySpace).reverse.reverse := by
          rw [List.reverse_reverse]
      _ = ((l.dropWhile isPySpace).reverse.takeWhile isPySpace ++
            (l.dropWhile isPySpace).reverse.dropWhile isPySpace).reverse := by
          rw [← h2]
      _ = ((l.dropWhile isPySpace).reverse.dropWhile isPySpace).reverse ++
            ((l.dropWhile isPySpace).reverse.takeWhile isPySpace).reverse := by
          rw [List.reverse_append]
  rw [List.append_assoc, ← h3]
  exact h1

/-- Setting a key makes it retrievable. -/
lemma get_set_self (r : Record) (k : String) (v : Value) :
    (Record.set r k v).get k = some v := by
  unfold Record.set Record.get
  by_cases h : r.any (fun p => p.1 = k)
  · rw [if_pos h, List.find?_map]
    have hpe : ((fun (p : String × Value) => decide (p.1 = k)) ∘
        (fun p => if p.1 = k then (k, v) else p)) =
        (fun (p : String × Value) => decide (p.1 = k)) := by
      funext p
      by_cases hp : p.1 = k <;> simp [hp]
    rw [hpe]
    cases hf : r.find? (fun p => decide (p.1 = k)) with
    | none =>
        rw [List.find?_eq_none] at hf
        obtain ⟨p, hp, hpk⟩ := List.any_eq_true.mp h
        exact absurd hpk (hf p hp)
    | some p =>
        have hpk : p.1 = k := by simpa using List.find?_some hf
        simp [hpk]
  · rw [if_neg h, List.find?_append]
    have hnone : r.find? (fun p => decide (p.1 = k)) = Option.none := by
      rw [List.find?_eq_none]
      intro p hp hpk
      exact h (List.any_eq_true.mpr ⟨p, hp, hpk⟩)
    rw [hnone]
    simp

/-- A retrievable value is among the record's values. -/
lemma get_some_mem_values {r : Record} {k : String} {v : Value}
    (h : r.get k = some v) : v ∈ r.values := by
  unfold Record.get at h
  cases hf : r.find? (fun p => p.1 = k) with
  | none => rw [hf] at h; cases h
  | some p =>
      rw [hf] at h
      cases h
      exact List.mem_map_of_mem _ (List.mem_of_find?_eq_some hf)

/-- The shape of every record `sheet_to_dict` produces: the column cells
plus the `_row` provenance string `"<sheetname>:<row>"` with 1-based row. -/
lemma sheet_to_dict_shape {sheetname : String} {cols : List (String × List Value)}
    {users : List Record} (h : sheet_to_dict sheetname cols = Except.ok users) :
    ∀ r ∈ users, ∃ row : Nat,
      r = Record.set (cols.map (fun c => (c.1, c.2.getD row (Value.str ""))))
        ROW_HEADER (Value.str (sheetname ++ ":" ++ toString (row + 1))) := by
  unfold sheet_to_dict at h
  cases hc : cols.map (fun c => c.2.length) with
  | nil => rw [hc] at h; cases h
  | cons n ns =>
      rw [hc] at h
      cases h
      intro r hr
      rw [List.mem_map] at hr
      obtain ⟨row, _, rfl⟩ := hr
      exact ⟨row, rfl⟩

/-- Claim C10: the synthetic `_row` provenance field is itself a string
field scanned by `find_user`, so any query that is a case-insensitive
substring of a record's provenance label `"<sheetname>:<row>"` makes that
record a candidate; in particular the sheet name as query matches every
record of the sheet, raising `AmbiguousUser` with all provenance labels
whenever the sheet holds two or more records. -/
theorem C10_provenance_is_searched (sheetname : String)
    (cols : List (String × List Value)) (users : List Record)
    (hload : sheet_to_dict sheetname cols = Except.ok users) :
    (∀ r ∈ users, ∃ prov : String,
      r.get ROW_HEADER = some (Value.str prov) ∧
      (∃ row : Nat, prov = sheetname ++ ":" ++ toString (row + 1)) ∧
      (∀ q : String, pyIn (normalizeQuery q) (pyLower prov) = true →
        r ∈ candidates users q)) ∧
    (2 ≤ users.length →
      find_user users sheetname = Except.error (Err.ambiguousUser sheetname
        (users.map (fun u => u.get ROW_HEADER)))) := by
  have hshape := sheet_to_dict_shape hload
  have hprov : ∀ r ∈ users, ∃ row : Nat,
      r.get ROW_HEADER = some (Value.str (sheetname ++ ":" ++ toString (row + 1))) := by
    intro r hr
    obtain ⟨row, rfl⟩ := hshape r hr
    exact ⟨row, get_set_self _ _ _⟩
  have hcand : ∀ r ∈ users, ∀ q prov : String,
      r.get ROW_HEADER = some (Value.str prov) →
      pyIn (normalizeQuery q) (pyLower prov) = true →
      userMatches (normalizeQuery q) r = true := by
    intro r _ q prov hget hin
    unfold userMatches
    rw [List.any_eq_true]
    exact ⟨Value.str prov, get_some_mem_values hget, hin⟩
  constructor
  · intro r hr
    obtain ⟨row, hget⟩ := hprov r hr
    refine ⟨sheetname ++ ":" ++ toString (row + 1), hget, ⟨row, rfl⟩, ?_⟩
    intro q hin
    unfold candidates
    rw [List.mem_filter]
    exact ⟨hr, hcand r hr q _ hget hin⟩
  · intro hlen
    have hall : ∀ r ∈ users, userMatches (normalizeQuery sheetname) r = true := by
      intro r hr
      obtain ⟨row, hget⟩ := hprov r hr
      apply hcand r hr sheetname _ hget
      show substrL (stripL (lowerL sheetname.data))
        (lowerL ((sheetname ++ ":" ++ toString (row + 1)).data)) = true
      have hdata : (sheetname ++ ":" ++ toString (row + 1)).data =
          sheetname.data ++ (":" ++ toString (row + 1)).data := by
        have h1 : sheetname ++ ":" ++ toString (row + 1) =
            sheetname ++ (":" ++ toString (row + 1)) := by
          rw [String.append_assoc]
        rw [h1]
        rfl
      rw [hdata]
      unfold lowerL
      rw [List.map_append]
      obtain ⟨p, t, hd⟩ := strip_decomp (sheetname.data.map lowerChar)
      rw [substrL_iff]
      refine ⟨p, t ++ (":" ++ toString (row + 1)).data.map lowerChar, ?_⟩
      conv =>
        lhs
        rw [hd]
      rw [List.append_assoc, List.append_assoc]
    have hfe : candidates users sheetname = users := List.filter_eq_self.mpr hall
    unfold find_user
    rw [hfe]
    cases users with
    | nil => simp at hlen
    | cons u1 rest =>
        cases rest with
        | nil => simp at hlen
        | cons u2 rest2 => rfl

/-- Witness for C10 at a concrete input: a two-row sheet named `Users`
makes the query `"Users"` ambiguous with both provenance labels. -/
theorem C10_provenance_is_searched_witness :
    find_user [[("User", Value.str "Fred"), (ROW_HEADER, Value.str "Users:1")],
        [("User", Value.str "Wilma"), (ROW_HEADER, Value.str "Users:2")]] "Users" =
      Except.error (Err.ambiguousUser "Users"
        [some (Value.str "Users:1"), some (Value.str "Users:2")]) := by
  have h := (C10_provenance_is_searched "Users"
    [("User", [Value.str "Fred", Value.str "Wilma"])]
    [[("User", Value.str "Fred"), (ROW_HEADER, Value.str "Users:1")],
     [("User", Value.str "Wilma"), (ROW_HEADER, Value.str "Users:2")]] rfl).2 (by decide)
  rw [h]
  rfl

/-! ### The exit-code claim (C9) -/

/-- Claim C9: `run` returns 4 when the named (truthy, i.e. non-empty)
configuration file does not exist, then proceeds on the merged
configuration — an absent or empty config name skips the config step
(`if args.config:` is Python truthiness); 5 when the configuration is
incomplete; 1 when the spreadsheet path is not a file; 2 when any person
record fails validation; 3 when any action record fails validation; and 0
on success or when there is nothing to do — with the checks in exactly that
order (each case presupposes every earlier gate passed). -/
theorem C9_run_exit_codes (st st' : Cfg) (env : Env) (args : Args)
    (sp : String) (pre clo : String) (ths : List String) :
    (∀ c, args.config = some c → c.isEmpty = false → env.isFile c = false →
      run st env args = Except.ok 4) ∧
    (∀ c, args.config = some c → c.isEmpty = false → env.isFile c = true →
      run st env args = runAfterConfig (env.applyConfig c st) env args args.days) ∧
    (args.config = Option.none →
      run st env args = runAfterConfig st env args args.days) ∧
    (∀ c, args.config = some c → c.isEmpty = true →
      run st env args = runAfterConfig st env args args.days) ∧
    (¬(check_config st').isEmpty →
      ∀ days, runAfterConfig st' env args days = Except.ok 5) ∧
    ((check_config st').isEmpty →
      orFalsy args.spreadsheet st'.spreadsheet = some sp →
      env.isFile sp = false →
      ∀ days, runAfterConfig st' env args days = Except.ok 1) ∧
    ((check_config st').isEmpty →
      orFalsy args.spreadsheet st'.spreadsheet = some sp →
      env.isFile sp = true →
      ∀ days, runAfterConfig st' env args days = runFromData st' env args days sp) ∧
    (st'.msg_preamble = some pre → st'.msg_close = some clo →
      ¬(validate_users pre clo st'.hdr_email st'.hdr_user
          (env.load sp st'.tab_user)).isEmpty →
      ∀ days, runFromData st' env args days sp = Except.ok 2) ∧
    (st'.msg_preamble = some pre → st'.msg_close = some clo →
      (validate_users pre clo st'.hdr_email st'.hdr_user
          (env.load sp st'.tab_user)).isEmpty →
      st'.msg_table_headers = some ths →
      ¬(validate_actions ths st'.hdr_user st'.hdr_due st'.hdr_id
          (env.load sp st'.tab_action)).isEmpty →
      ∀ days, runFromData st' env args days sp = Except.ok 3) ∧
    (∀ days dueA ua ua2,
      st'.msg_preamble = some pre → st'.msg_close = some clo →
      (validate_users pre clo st'.hdr_email st'.hdr_user
          (env.load sp st'.tab_user)).isEmpty →
      st'.msg_table_headers = some ths →
      (validate_actions ths st'.hdr_user st'.hdr_due st'.hdr_id
          (env.load sp st'.tab_action)).isEmpty →
      pyFilterM (dueLt st'.hdr_due (env.beforeDt days))
        ((env.load sp st'.tab_action).filter
          (fun a => a.getOpt st'.hdr_status = some (Value.str "Open"))) =
        Except.ok dueA →
      correlate (env.load sp st'.tab_user) st'.hdr_user st'.hdr_id
        (sortByDue st'.hdr_due dueA) = Except.ok ua →
      personFilter (env.load sp st'.tab_user) args.person ua = Except.ok ua2 →
      (ua2.isEmpty = true → runFromData st' env args days sp = Except.ok 0) ∧
      (ua2.isEmpty = false → args.interactive = false →
        (send_all_emails (mcfgOf st') ua2 days env.sendOk).2 = Except.ok () →
        runFromData st' env args days sp = Except.ok 0) ∧
      (ua2.isEmpty = false → args.interactive = true →
        (interactive_send_email (mcfgOf st') ua2 env.inputs days env.sendOk).2 =
          Except.ok () →
        runFromData st' env args days sp = Except.ok 0)) := by
  refine ⟨?_, ?_, ?_, ?_, ?_, ?_, ?_, ?_, ?_, ?_⟩
  · intro c hc hne hf
    unfold run
    rw [hc]
    simp [hne, hf]
  · intro c hc hne hf
    unfold run
    rw [hc]
    simp [hne, hf]
  · intro hc
    unfold run
    rw [hc]
  · intro c hc he
    unfold run
    rw [hc]
    simp [he]
  · intro hcc days
    unfold runAfterConfig
    rw [if_pos hcc]
  · intro hcc hsp hf days
    unfold runAfterConfig
    rw [if_neg (not_not_intro hcc), hsp]
    simp [hf]
  · intro hcc hsp hf days
    unfold runAfterConfig
    rw [if_neg (not_not_intro hcc), hsp]
    simp [hf]
  · intro hp hc hv days
    unfold runFromData
    rw [hp, hc]
    dsimp only
    rw [if_pos hv]
  · intro hp hc hv hths hav days
    unfold runFromData
    rw [hp, hc]
    dsimp only
    rw [if_neg (not_not_intro hv), hths]
    dsimp only
    rw [if_pos hav]
  · intro days dueA ua ua2 hp hc hv hths hav hdue hcor hpf
    have hbody : runFromData st' env args days sp =
        (if ua2.isEmpty then Except.ok 0
         else if ¬args.interactive then
           (send_all_emails (mcfgOf st') ua2 days env.sendOk).2 >>=
             fun _ => Except.ok 0
         else
           (interactive_send_email (mcfgOf st') ua2 env.inputs days env.sendOk).2 >>=
             fun _ => Except.ok 0) := by
      unfold runFromData
      rw [hp, hc]
      dsimp only
      rw [if_neg (not_not_intro hv), hths]
      dsimp only
      rw [if_neg (not_not_intro hav), hdue, bindE_ok, hcor, bindE_ok, hpf, bindE_ok]
    refine ⟨?_, ?_, ?_⟩
    · intro he
      rw [hbody, if_pos he]
    · intro he hi hsend
      rw [hbody, if_neg (by simp [he]), if_pos (by simp [hi]), hsend, bindE_ok]
    · intro he hi hsend
      rw [hbody, if_neg (by simp [he]), if_neg (by simp [hi]), hsend, bindE_ok]

/-- Witness for C9 at a concrete input: a named config file that the file
system probe rejects yields exit code 4. -/
theorem C9_run_exit_codes_witness :
    run cfg0 env0 args0 = Except.ok 4 := by
  exact (C9_run_exit_codes cfg0 cfg0 env0 args0 "" "" "" []).1 "reminders.ini" rfl rfl rfl

end Rem
